import Mathlib

/-!
# Verification of `tempfork/x509/root_darwin_arm_gen.go`

The generator reads `certs.pem`, scans it for PEM blocks, keeps the header-free
`CERTIFICATE` blocks, parses each as an X.509 certificate, gzip-compresses every
certificate's DER and renders one `p.addCertFuncNotDup(...)` statement per
certificate between a fixed header and footer.

The Go standard-library routines that the program calls (`pem.Decode`,
`x509.ParseCertificate`, `gzip`, `format.Source`, `ioutil.ReadFile`,
`ioutil.WriteFile`) are the fields of the structure `Lib`; the program itself
(`selectCerts`, `main`, `header`, `footer`) is embedded function by function.
-/

namespace RootDarwinArmGen

/-- A Go byte slice. -/
abbrev Bytes := List UInt8

/-- The fields of `pem.Block` (`Type`, `Headers`, `Bytes`). -/
structure Block where
  blockType : String
  Headers : List (String × String)
  Bytes : Bytes
deriving DecidableEq, Repr

/-- The fields of `x509.Certificate` that the generator reads. -/
structure Certificate where
  Raw : Bytes
  RawSubject : Bytes
  SubjectKeyId : Bytes
deriving DecidableEq, Repr

/-- The library routines the generator calls, over a file-system state `FS`.
A Go `error` is represented by its message. -/
structure Lib (FS : Type) where
  /-- Go `ioutil.ReadFile` -/
  readFile : FS → String → Except String Bytes
  /-- Go `pem.Decode`: the next block, if any, and the remainder of the input -/
  pemDecode : Bytes → Option Block × Bytes
  /-- Go `x509.ParseCertificate` -/
  parseCertificate : Bytes → Except String Certificate
  /-- Go `gzip.NewWriterLevel(_, gzip.BestCompression)`, `Write`, `Close` -/
  gzipBest : Bytes → Except String Bytes
  /-- The `%q` verb of `fmt.Fprintf` applied to a byte slice -/
  quote : Bytes → String
  /-- Go `format.Source` -/
  formatSource : String → Except String Bytes
  /-- Go `ioutil.WriteFile name data 0644`: the new state, and the error if any -/
  writeFile : FS → String → Bytes → FS × Option String

/-- The loop of `selectCerts` (source lines 76-92). `fuel` bounds the number of
iterations; `none` means the bound was reached with input still left. The
result is the Go pair `(certs, err)`. -/
def selectLoop {FS : Type} (L : Lib FS) :
    Nat → Bytes → List Certificate → Option (List Certificate × Option String)
  | 0, pemCerts, certs =>
    if pemCerts.length > 0 then none else some (certs, none)
  | fuel + 1, pemCerts, certs =>
    if pemCerts.length > 0 then
      match L.pemDecode pemCerts with
      | (none, _) => some (certs, none)
      | (some block, rest) =>
        if block.blockType != "CERTIFICATE" || block.Headers.length != 0 then
          selectLoop L fuel rest certs
        else
          match L.parseCertificate block.Bytes with
          | .error err => some ([], some err)
          | .ok cert => selectLoop L fuel rest (certs ++ [cert])
    else some (certs, none)

/-- The function `selectCerts` (source lines 71-93). -/
def selectCerts {FS : Type} (L : Lib FS) (fuel : Nat) (w : FS) :
    Option (List Certificate × Option String) :=
  match L.readFile w "certs.pem" with
  | .error err => some ([], some err)
  | .ok pemCerts => selectLoop L fuel pemCerts []

/-- The constant `header` (source lines 95-106). -/
def header : String :=
  "\n// Copyright 2015 The Go Authors. All rights reserved.\n// Use of this source code is governed by a BSD-style\n// license that can be found in the LICENSE file.\n\n// +build !x509omitbundledroots\n\npackage x509\n\nfunc loadSystemRoots() (*CertPool, error) \x7b\n\tp := NewCertPool()\n"

/-- The constant `footer` (source lines 108-111). -/
def footer : String :=
  "\n\treturn p, nil\n\x7d\n"

/-- The first `Fprintf` of `main` (source line 41). -/
def marker (output : String) : String :=
  "// Code generated by root_darwin_arm_gen --output " ++ output ++ "; DO NOT EDIT.\n"

/-- The `Fprintf` of source lines 55-58 on its three arguments. -/
def statement {FS : Type} (L : Lib FS) (rawSubject subjectKeyId gz : Bytes) : String :=
  "p.addCertFuncNotDup(" ++ L.quote rawSubject ++ ", " ++ L.quote subjectKeyId
    ++ ", certUncompressor(" ++ L.quote gz ++ "))\n"

/-- The `for _, cert := range certs` loop of `main` (source lines 43-59): the
buffer after the loop, or the message of the first compression error. -/
def emitLoop {FS : Type} (L : Lib FS) : List Certificate → String → Except String String
  | [], buf => .ok buf
  | cert :: certs, buf =>
    match L.gzipBest cert.Raw with
    | .error err => .error err
    | .ok gz => emitLoop L certs (buf ++ statement L cert.RawSubject cert.SubjectKeyId gz)

/-- The buffer `buf` of `main` before `format.Source` (source lines 39-60). -/
def render {FS : Type} (L : Lib FS) (output : String) (certs : List Certificate) :
    Except String String :=
  match emitLoop L certs (marker output ++ header) with
  | .error err => .error err
  | .ok buf => .ok (buf ++ footer)

/-- How a run of `main` ends: the file-system state it leaves and, when it ended
in `log.Fatal`, the message. -/
structure Run (FS : Type) where
  world : FS
  fatal : Option String

/-- The function `main` (source lines 33-69); `output` is the value of the flag
variable `*output`. The source never calls `flag.Parse`, so in a run of the
program that value is the default of source line 31, `root_darwin_arm64.go`,
whatever the command line says. -/
def main {FS : Type} (L : Lib FS) (fuel : Nat) (output : String) (w : FS) : Option (Run FS) :=
  match selectCerts L fuel w with
  | none => none
  | some (_, some err) => some ⟨w, some err⟩
  | some (certs, none) =>
    match render L output certs with
    | .error err => some ⟨w, some err⟩
    | .ok buf =>
      match L.formatSource buf with
      | .error err => some ⟨w, some ("source format error:" ++ err)⟩
      | .ok source =>
        match L.writeFile w output source with
        | (w', some err) => some ⟨w', some err⟩
        | (w', none) => some ⟨w', none⟩

/-! ## Vocabulary of the specification -/

/-- The filter of the specification: the type label is exactly `CERTIFICATE`
and the header mapping is empty. -/
def accepted (b : Block) : Bool :=
  b.blockType == "CERTIFICATE" && b.Headers.length == 0

/-- The block scanner of the specification: decode the next block and advance
past it, until the remainder is empty or no block can be decoded. -/
def scanBlocks (decode : Bytes → Option Block × Bytes) : Nat → Bytes → List Block
  | 0, _ => []
  | fuel + 1, data =>
    if data.length > 0 then
      match decode data with
      | (none, _) => []
      | (some b, rest) => b :: scanBlocks decode fuel rest
    else []

/-- The sequence of PEM blocks of an input. -/
def blocksOf (decode : Bytes → Option Block × Bytes) (data : Bytes) : List Block :=
  scanBlocks decode data.length data

/-- The decoder returns a strictly shorter remainder whenever it returns a block. -/
def Shrinks (decode : Bytes → Option Block × Bytes) : Prop :=
  ∀ data b rest, decode data = (some b, rest) → rest.length < data.length

/-- Parse the blocks in order, stopping at the first one that fails. -/
def decodeAll (parse : Bytes → Except String Certificate) :
    List Block → Except String (List Certificate)
  | [] => .ok []
  | b :: bs =>
    match parse b.Bytes with
    | .error e => .error e
    | .ok c =>
      match decodeAll parse bs with
      | .error e => .error e
      | .ok cs => .ok (c :: cs)

/-- The Go pair `(certs, err)` for certificates `acc` gathered before and the
outcome of parsing the blocks that follow. -/
def finish (acc : List Certificate) :
    Except String (List Certificate) → List Certificate × Option String
  | .ok cs => (acc ++ cs, none)
  | .error e => ([], some e)

/-- The statements written by the loop of `main`, in the order written. -/
def statementsOf {FS : Type} (L : Lib FS) : List Certificate → Except String (List String)
  | [] => .ok []
  | cert :: certs =>
    match L.gzipBest cert.Raw with
    | .error err => .error err
    | .ok gz =>
      match statementsOf L certs with
      | .error err => .error err
      | .ok ss => .ok (statement L cert.RawSubject cert.SubjectKeyId gz :: ss)


/-! ## The `%q` verb and Go string literals

`fmt` formats a byte slice under `%q` with `strconv.Quote`; the generated file
is read back by the Go compiler. Both belong to Go, not to this repository:
the definitions below transcribe `strconv.Quote` with the `unicode/utf8`
routines it calls, and the grammar of interpreted string literals of the Go
language specification. Runes are natural numbers; the text written is a list
of characters, a rune appended in UTF-8 being one character. The tables of
`strconv.IsPrint` above Latin-1 are the parameter `tbl`. -/

/-- Go `utf8.RuneError`. -/
def RuneError : Nat := 0xFFFD

/-- Go `utf8.RuneSelf`. -/
def RuneSelf : Nat := 0x80

/-- Go `utf8.MaxRune`. -/
def MaxRune : Nat := 0x10FFFF

/-- The table `first` of `unicode/utf8`: information about the first byte of a
UTF-8 sequence (`as` is `0xF0`, `xx` is `0xF1`, `s1` to `s7` the rest). -/
def first (b : Nat) : Nat :=
  if b < 0x80 then 0xF0
  else if b < 0xC2 then 0xF1
  else if b < 0xE0 then 0x02
  else if b = 0xE0 then 0x13
  else if b < 0xED then 0x03
  else if b = 0xED then 0x23
  else if b < 0xF0 then 0x03
  else if b = 0xF0 then 0x34
  else if b < 0xF4 then 0x04
  else if b = 0xF4 then 0x44
  else 0xF1

/-- The table `acceptRanges` of `unicode/utf8`: bounds on the second byte. -/
def acceptRanges (i : Nat) : Nat × Nat :=
  if i = 0 then (0x80, 0xBF)
  else if i = 1 then (0xA0, 0xBF)
  else if i = 2 then (0x80, 0x9F)
  else if i = 3 then (0x90, 0xBF)
  else if i = 4 then (0x80, 0x8F)
  else (0, 0)

/-- Go `utf8.DecodeRuneInString`: the rune at the start of `s` and its width. -/
def DecodeRuneInString (s : Bytes) : Nat × Nat :=
  match s with
  | [] => (RuneError, 0)
  | b0 :: t0 =>
    let s0 := b0.toNat
    let x := first s0
    if x ≥ 0xF0 then
      (if x &&& 1 = 1 then RuneError else s0, 1)
    else
      let sz := x &&& 7
      let accept := acceptRanges (x >>> 4)
      if s.length < sz then (RuneError, 1)
      else
        match t0 with
        | [] => (RuneError, 1)
        | b1 :: t1 =>
          let s1 := b1.toNat
          if s1 < accept.1 ∨ accept.2 < s1 then (RuneError, 1)
          else if sz ≤ 2 then ((s0 &&& 0x1F) <<< 6 ||| (s1 &&& 0x3F), 2)
          else
            match t1 with
            | [] => (RuneError, 1)
            | b2 :: t2 =>
              let s2 := b2.toNat
              if s2 < 0x80 ∨ 0xBF < s2 then (RuneError, 1)
              else if sz ≤ 3 then
                ((s0 &&& 0x0F) <<< 12 ||| (s1 &&& 0x3F) <<< 6 ||| (s2 &&& 0x3F), 3)
              else
                match t2 with
                | [] => (RuneError, 1)
                | b3 :: _ =>
                  let s3 := b3.toNat
                  if s3 < 0x80 ∨ 0xBF < s3 then (RuneError, 1)
                  else
                    ((s0 &&& 0x07) <<< 18 ||| (s1 &&& 0x3F) <<< 12
                      ||| (s2 &&& 0x3F) <<< 6 ||| (s3 &&& 0x3F), 4)

/-- Go `utf8.ValidRune`. -/
def ValidRune (r : Nat) : Bool :=
  (r < 0xD800) || (0xDFFF < r && r ≤ MaxRune)

/-- Go `utf8.AppendRune` to an empty slice: the UTF-8 encoding of `r`. -/
def AppendRune (r : Nat) : Bytes :=
  if r ≤ 0x7F then [UInt8.ofNat r]
  else if r ≤ 0x7FF then
    [UInt8.ofNat (0xC0 ||| (r >>> 6) % 256), UInt8.ofNat (0x80 ||| (r % 256 &&& 0x3F))]
  else if r > MaxRune ∨ (0xD800 ≤ r ∧ r ≤ 0xDFFF) then
    [UInt8.ofNat (0xE0 ||| (RuneError >>> 12) % 256),
     UInt8.ofNat (0x80 ||| ((RuneError >>> 6) % 256 &&& 0x3F)),
     UInt8.ofNat (0x80 ||| (RuneError % 256 &&& 0x3F))]
  else if r ≤ 0xFFFF then
    [UInt8.ofNat (0xE0 ||| (r >>> 12) % 256),
     UInt8.ofNat (0x80 ||| ((r >>> 6) % 256 &&& 0x3F)),
     UInt8.ofNat (0x80 ||| (r % 256 &&& 0x3F))]
  else
    [UInt8.ofNat (0xF0 ||| (r >>> 18) % 256),
     UInt8.ofNat (0x80 ||| ((r >>> 12) % 256 &&& 0x3F)),
     UInt8.ofNat (0x80 ||| ((r >>> 6) % 256 &&& 0x3F)),
     UInt8.ofNat (0x80 ||| (r % 256 &&& 0x3F))]

/-- Go `strconv.IsPrint`: decided by ranges up to `0xFF`, by tables above. -/
def IsPrint (tbl : Nat → Bool) (r : Nat) : Bool :=
  if r ≤ 0xFF then
    if 0x20 ≤ r ∧ r ≤ 0x7E then true
    else if 0xA1 ≤ r ∧ r ≤ 0xFF then r != 0xAD
    else false
  else tbl r

/-- The constant `lowerhex` of `strconv`, indexed. -/
def lowerhex (i : Nat) : Char :=
  "0123456789abcdef".toList.getD i '0'

/-- The character written for a rune that is appended in UTF-8. -/
def runeChar (r : Nat) : Char :=
  Char.ofNat (if ValidRune r then r else RuneError)

/-- Go `strconv.appendEscapedRune` with `quote = '"'`, `ASCIIonly = false` and
`graphicOnly = false`: the characters appended for the rune `r`. -/
def appendEscapedRune (tbl : Nat → Bool) (r : Nat) : List Char :=
  if r = 0x22 ∨ r = 0x5C then ['\\', Char.ofNat (r % 256)]
  else if IsPrint tbl r then [runeChar r]
  else if r = 7 then ['\\', 'a']
  else if r = 8 then ['\\', 'b']
  else if r = 12 then ['\\', 'f']
  else if r = 10 then ['\\', 'n']
  else if r = 13 then ['\\', 'r']
  else if r = 9 then ['\\', 't']
  else if r = 11 then ['\\', 'v']
  else if r < 0x20 ∨ r = 0x7F then
    ['\\', 'x', lowerhex ((r % 256) >>> 4), lowerhex ((r % 256) &&& 0xF)]
  else if !ValidRune r then
    ['\\', 'u', lowerhex (RuneError >>> 12 &&& 0xF), lowerhex (RuneError >>> 8 &&& 0xF),
      lowerhex (RuneError >>> 4 &&& 0xF), lowerhex (RuneError >>> 0 &&& 0xF)]
  else if r < 0x10000 then
    ['\\', 'u', lowerhex (r >>> 12 &&& 0xF), lowerhex (r >>> 8 &&& 0xF),
      lowerhex (r >>> 4 &&& 0xF), lowerhex (r >>> 0 &&& 0xF)]
  else
    ['\\', 'U', lowerhex (r >>> 28 &&& 0xF), lowerhex (r >>> 24 &&& 0xF),
      lowerhex (r >>> 20 &&& 0xF), lowerhex (r >>> 16 &&& 0xF),
      lowerhex (r >>> 12 &&& 0xF), lowerhex (r >>> 8 &&& 0xF),
      lowerhex (r >>> 4 &&& 0xF), lowerhex (r >>> 0 &&& 0xF)]

/-- The loop of `strconv.appendQuotedWith`: the characters written for `s`.
Every iteration consumes at least one byte, so `s.length` iterations suffice. -/
def quoteLoop (tbl : Nat → Bool) : Nat → Bytes → List Char
  | 0, _ => []
  | fuel + 1, s =>
    match s with
    | [] => []
    | b0 :: _ =>
      let rw := if b0.toNat ≥ RuneSelf then DecodeRuneInString s else (b0.toNat, 1)
      if rw.2 = 1 ∧ rw.1 = RuneError then
        ['\\', 'x', lowerhex (b0.toNat >>> 4), lowerhex (b0.toNat &&& 0xF)]
          ++ quoteLoop tbl fuel (s.drop rw.2)
      else
        appendEscapedRune tbl rw.1 ++ quoteLoop tbl fuel (s.drop rw.2)

/-- Go `strconv.Quote`, which `%q` applies to a byte slice. -/
def goQuote (tbl : Nat → Bool) (s : Bytes) : String :=
  String.mk ('"' :: quoteLoop tbl s.length s ++ ['"'])

/-- The value of a `hex_digit` of the Go grammar. -/
def unhex (c : Char) : Option Nat :=
  if '0' ≤ c ∧ c ≤ '9' then some (c.toNat - 48)
  else if 'a' ≤ c ∧ c ≤ 'f' then some (c.toNat - 97 + 10)
  else if 'A' ≤ c ∧ c ≤ 'F' then some (c.toNat - 65 + 10)
  else none

/-- The value of a run of hexadecimal digits, most significant first, after the
digits of value `acc`. -/
def hexValue (acc : Nat) : List Char → Option Nat
  | [] => some acc
  | c :: cs =>
    match unhex c with
    | some d => hexValue (acc * 16 + d) cs
    | none => none

/-- The value of a run of octal digits, most significant first, after the digits
of value `acc`. -/
def octValue (acc : Nat) : List Char → Option Nat
  | [] => some acc
  | c :: cs =>
    if '0' ≤ c ∧ c ≤ '7' then octValue (acc * 8 + (c.toNat - 48)) cs
    else none

/-- The byte an `escaped_char` of a string literal stands for. -/
def escapedChar (c : Char) : Option UInt8 :=
  if c = 'a' then some 7
  else if c = 'b' then some 8
  else if c = 'f' then some 12
  else if c = 'n' then some 10
  else if c = 'r' then some 13
  else if c = 't' then some 9
  else if c = 'v' then some 11
  else if c = '\\' then some 0x5C
  else if c = '"' then some 0x22
  else none

/-- The text after the opening quote of an interpreted string literal, read by
the grammar of the Go specification up to the closing quote, which must end
the text: `\x` and octal escapes denote single bytes, `\u`, `\U` and plain
characters denote the UTF-8 encoding of a code point; a newline, a NUL, a byte
order mark, a surrogate or an out-of-range escape is rejected. -/
def literalLoop : Nat → List Char → Option Bytes
  | 0, _ => none
  | fuel + 1, cs =>
    match cs with
    | [] => none
    | c :: rest =>
      if c = '"' then (if rest = [] then some [] else none)
      else if c = '\\' then
        match rest with
        | [] => none
        | e :: rest1 =>
          if e = 'x' then
            match hexValue 0 (rest1.take 2) with
            | some v =>
              if (rest1.take 2).length = 2 then
                (literalLoop fuel (rest1.drop 2)).map (UInt8.ofNat v :: ·)
              else none
            | none => none
          else if e = 'u' then
            match hexValue 0 (rest1.take 4) with
            | some v =>
              if (rest1.take 4).length = 4 ∧ ValidRune v then
                (literalLoop fuel (rest1.drop 4)).map (AppendRune v ++ ·)
              else none
            | none => none
          else if e = 'U' then
            match hexValue 0 (rest1.take 8) with
            | some v =>
              if (rest1.take 8).length = 8 ∧ ValidRune v then
                (literalLoop fuel (rest1.drop 8)).map (AppendRune v ++ ·)
              else none
            | none => none
          else if '0' ≤ e ∧ e ≤ '7' then
            match octValue 0 (rest.take 3) with
            | some v =>
              if (rest.take 3).length = 3 ∧ v ≤ 255 then
                (literalLoop fuel (rest.drop 3)).map (UInt8.ofNat v :: ·)
              else none
            | none => none
          else
            match escapedChar e with
            | some b => (literalLoop fuel rest1).map (b :: ·)
            | none => none
      else if c = '\n' ∨ c.toNat = 0 ∨ c.toNat = 0xFEFF then none
      else (literalLoop fuel rest).map (AppendRune c.toNat ++ ·)

/-- The bytes denoted by an interpreted string literal of Go. -/
def goUnquote (text : String) : Option Bytes :=
  match text.data with
  | [] => none
  | c :: cs => if c = '"' then literalLoop cs.length cs else none

/-- A part of the tables of `strconv.IsPrint`: the Greek small letters, the
Cyrillic letters from `U+0410` to `U+044F` and the emoticons. Every rune marked
here is printable; the tables of Go mark many more. -/
def sampleTable (r : Nat) : Bool :=
  (0x3B1 ≤ r && r ≤ 0x3C9) || (0x410 ≤ r && r ≤ 0x44F) || (0x1F600 ≤ r && r ≤ 0x1F64F)

/-! ## A small concrete library

A miniature instance of `Lib`, used to run the generator on concrete inputs.
Its "PEM" encoding spends two bytes per block: a tag and one payload byte. -/

/-- A file system as an association list from names to contents. -/
abbrev ToyFS := List (String × Bytes)

/-- Look the file up; a missing file is an error. -/
def toyRead (fs : ToyFS) (name : String) : Except String Bytes :=
  match fs.lookup name with
  | some d => .ok d
  | none => .error ("open " ++ name ++ ": no such file or directory")

/-- Replace the file; never fails. -/
def toyWrite (fs : ToyFS) (name : String) (data : Bytes) : ToyFS × Option String :=
  ((name, data) :: fs.filter (fun e => e.1 != name), none)

/-- Tag 1 is a bare certificate block, tag 2 a private key, tag 3 a certificate
block with a header, any other non-zero tag a CRL; tag 0 is not a block. -/
def toyDecode : Bytes → Option Block × Bytes
  | t :: p :: rest =>
    if t = 0 then (none, t :: p :: rest)
    else if t = 1 then (some ⟨"CERTIFICATE", [], [p]⟩, rest)
    else if t = 2 then (some ⟨"PRIVATE KEY", [], [p]⟩, rest)
    else if t = 3 then (some ⟨"CERTIFICATE", [("X-Trust", "yes")], [p]⟩, rest)
    else (some ⟨"X509 CRL", [], [p]⟩, rest)
  | data => (none, data)

/-- A one-byte "DER" below 128 is a certificate; everything else is malformed. -/
def toyParse : Bytes → Except String Certificate
  | [p] =>
    if p < 128 then .ok ⟨[p], [48, p], [p % 4]⟩
    else .error "x509: malformed certificate"
  | _ => .error "x509: malformed certificate"

/-- Prefix the two gzip magic bytes. -/
def toyGzip (data : Bytes) : Except String Bytes :=
  .ok (31 :: 139 :: data)

/-- Strip the two gzip magic bytes. -/
def toyGunzip : Bytes → Option Bytes
  | 31 :: 139 :: data => some data
  | _ => none

/-- Every byte as a two-digit hexadecimal escape, between double quotes. -/
def toyQuote (data : Bytes) : String :=
  "\"" ++ String.join (data.map fun b =>
    "\\x" ++ String.mk [Nat.digitChar (b.toNat / 16), Nat.digitChar (b.toNat % 16)]) ++ "\""

/-- The text unchanged, as bytes. -/
def toyFormat (text : String) : Except String Bytes :=
  .ok (text.toList.map fun c => c.toNat.toUInt8)

/-- The miniature library. -/
def toyLib : Lib ToyFS where
  readFile := toyRead
  pemDecode := toyDecode
  parseCertificate := toyParse
  gzipBest := toyGzip
  quote := toyQuote
  formatSource := toyFormat
  writeFile := toyWrite

/-- The certificate `toyParse` returns for the payload byte `p < 128`. -/
def toyCert (p : UInt8) : Certificate := ⟨[p], [48, p], [p % 4]⟩

/-- The miniature library on a read-only disk: every write fails. -/
def toyLibReadOnly : Lib ToyFS :=
  { toyLib with writeFile := fun fs _ _ => (fs, some "permission denied") }

/-- The miniature library with a compressor that writes one more header byte. -/
def toyLibOtherGzip : Lib ToyFS :=
  { toyLib with gzipBest := fun data => .ok (31 :: 139 :: 8 :: data) }

/-! ## The scan loop and the scanner -/

theorem skip_cond_eq (b : Block) :
    (b.blockType != "CERTIFICATE" || b.Headers.length != 0) = !accepted b := by
  simp [accepted, bne, Bool.not_and]

theorem scanBlocks_fuel {decode : Bytes → Option Block × Bytes} (hd : Shrinks decode) :
    ∀ (f1 f2 : Nat) (data : Bytes), data.length ≤ f1 → data.length ≤ f2 →
      scanBlocks decode f1 data = scanBlocks decode f2 data := by
  intro f1
  induction f1 with
  | zero =>
    intro f2 data h1 _
    have h0 : data.length = 0 := by omega
    cases f2 <;> simp [scanBlocks, h0]
  | succ n ih =>
    intro f2 data h1 h2
    cases f2 with
    | zero =>
      have h0 : data.length = 0 := by omega
      simp [scanBlocks, h0]
    | succ m =>
      by_cases hpos : data.length > 0
      · simp only [scanBlocks, hpos, if_true]
        rcases hdec : decode data with ⟨_ | b, rest⟩
        · rfl
        · have hlt := hd data b rest hdec
          simp only
          rw [ih m rest (by omega) (by omega)]
      · simp [scanBlocks, hpos]

theorem scanBlocks_eq_blocksOf {decode : Bytes → Option Block × Bytes} (hd : Shrinks decode)
    (fuel : Nat) (data : Bytes) (h : data.length ≤ fuel) :
    scanBlocks decode fuel data = blocksOf decode data :=
  scanBlocks_fuel hd fuel data.length data h (Nat.le_refl _)

theorem selectLoop_eq {FS : Type} (L : Lib FS) (hd : Shrinks L.pemDecode) :
    ∀ (fuel : Nat) (data : Bytes) (acc : List Certificate), data.length ≤ fuel →
      selectLoop L fuel data acc =
        some (finish acc (decodeAll L.parseCertificate
          ((scanBlocks L.pemDecode fuel data).filter accepted))) := by
  intro fuel
  induction fuel with
  | zero =>
    intro data acc h
    have h0 : data.length = 0 := by omega
    simp [selectLoop, scanBlocks, h0, decodeAll, finish]
  | succ n ih =>
    intro data acc h
    by_cases hpos : data.length > 0
    · simp only [selectLoop, scanBlocks, hpos, if_true]
      rcases hdec : L.pemDecode data with ⟨_ | b, rest⟩
      · simp [decodeAll, finish]
      · have hlt := hd data b rest hdec
        have hle : rest.length ≤ n := by omega
        simp only [skip_cond_eq]
        cases hacc : accepted b with
        | false =>
          simp [List.filter_cons, hacc, ih rest acc hle]
        | true =>
          simp only [List.filter_cons, hacc, if_true, decodeAll, Bool.not_true]
          cases hp : L.parseCertificate b.Bytes with
          | error e => simp [finish]
          | ok c =>
            simp only [ih rest (acc ++ [c]) hle]
            cases decodeAll L.parseCertificate
              ((scanBlocks L.pemDecode n rest).filter accepted) <;> simp [finish]
    · simp [selectLoop, scanBlocks, hpos, decodeAll, finish]

theorem selectCerts_eq {FS : Type} (L : Lib FS) (hd : Shrinks L.pemDecode)
    (fuel : Nat) (w : FS) (data : Bytes)
    (hread : L.readFile w "certs.pem" = .ok data) (hfuel : data.length ≤ fuel) :
    selectCerts L fuel w =
      some (finish [] (decodeAll L.parseCertificate
        ((blocksOf L.pemDecode data).filter accepted))) := by
  simp only [selectCerts, hread]
  rw [selectLoop_eq L hd fuel data [] hfuel, scanBlocks_eq_blocksOf hd fuel data hfuel]

/-! ## Parsing a block list -/

theorem decodeAll_ok_iff (parse : Bytes → Except String Certificate) :
    ∀ (bs : List Block) (cs : List Certificate),
      decodeAll parse bs = .ok cs ↔ List.Forall₂ (fun b c => parse b.Bytes = .ok c) bs cs := by
  intro bs
  induction bs with
  | nil =>
    intro cs
    cases cs <;> simp [decodeAll]
  | cons b bs ih =>
    intro cs
    simp only [decodeAll]
    cases hp : parse b.Bytes with
    | error e =>
      constructor
      · intro h; cases h
      · intro h
        cases h with
        | cons h1 _ => rw [hp] at h1; cases h1
    | ok c =>
      cases hr : decodeAll parse bs with
      | error e =>
        constructor
        · intro h; cases h
        · intro h
          cases h with
          | cons h1 h2 =>
            rw [← ih] at h2
            rw [hr] at h2; cases h2
      | ok cs0 =>
        constructor
        · intro h
          cases h
          exact List.Forall₂.cons hp ((ih cs0).1 hr)
        · intro h
          cases h with
          | cons h1 h2 =>
            rw [hp] at h1
            cases h1
            have := (ih _).2 h2
            rw [hr] at this
            cases this
            rfl

theorem decodeAll_error (parse : Bytes → Except String Certificate) (e : String) (b : Block)
    (post : List Block) (hb : parse b.Bytes = .error e) :
    ∀ pre : List Block, (∀ x ∈ pre, ∃ c, parse x.Bytes = .ok c) →
      decodeAll parse (pre ++ b :: post) = .error e := by
  intro pre
  induction pre with
  | nil => intro _; simp [decodeAll, hb]
  | cons x xs ih =>
    intro h
    obtain ⟨c, hc⟩ := h x (List.mem_cons_self _ _)
    have := ih (fun y hy => h y (List.mem_cons_of_mem _ hy))
    simp [decodeAll, hc, this]

theorem decodeAll_error_inv (parse : Bytes → Except String Certificate) :
    ∀ (bs : List Block) (e : String), decodeAll parse bs = .error e →
      ∃ pre b post, bs = pre ++ b :: post ∧ (∀ x ∈ pre, ∃ c, parse x.Bytes = .ok c) ∧
        parse b.Bytes = .error e := by
  intro bs
  induction bs with
  | nil => intro e h; simp [decodeAll] at h
  | cons x xs ih =>
    intro e h
    simp only [decodeAll] at h
    cases hp : parse x.Bytes with
    | error e0 =>
      rw [hp] at h
      cases h
      exact ⟨[], x, xs, rfl, by simp, hp⟩
    | ok c =>
      rw [hp] at h
      cases hr : decodeAll parse xs with
      | error e1 =>
        rw [hr] at h
        cases h
        obtain ⟨pre, b, post, h1, h2, h3⟩ := ih e hr
        refine ⟨x :: pre, b, post, by simp [h1], ?_, h3⟩
        intro y hy
        rcases List.mem_cons.1 hy with rfl | hy
        · exact ⟨c, hp⟩
        · exact h2 y hy
      | ok cs =>
        rw [hr] at h
        cases h

theorem decodeAll_congr (p1 p2 : Bytes → Except String Certificate) :
    ∀ bs : List Block, (∀ b ∈ bs, p1 b.Bytes = p2 b.Bytes) →
      decodeAll p1 bs = decodeAll p2 bs := by
  intro bs
  induction bs with
  | nil => intro _; rfl
  | cons x xs ih =>
    intro h
    simp only [decodeAll]
    rw [h x (List.mem_cons_self _ _), ih (fun y hy => h y (List.mem_cons_of_mem _ hy))]

theorem finish_ok_iff (r : Except String (List Certificate)) (certs : List Certificate) :
    finish [] r = (certs, none) ↔ r = .ok certs := by
  cases r <;> simp [finish]

theorem finish_error_iff (r : Except String (List Certificate)) (certs : List Certificate)
    (e : String) : finish [] r = (certs, some e) ↔ r = .error e ∧ certs = [] := by
  cases r <;> simp [finish, eq_comm, and_comm]

/-! ## The emit loop and the statement list -/

theorem join_cons (s : String) (ss : List String) :
    String.join (s :: ss) = s ++ String.join ss := by
  have key : ∀ (l : List String) (a : String),
      List.foldl (fun r t => r ++ t) a l = a ++ List.foldl (fun r t => r ++ t) "" l := by
    intro l
    induction l with
    | nil => intro a; simp
    | cons t ts ih =>
      intro a
      simp only [List.foldl_cons]
      rw [ih (a ++ t), ih ("" ++ t), String.empty_append, String.append_assoc]
  simp only [String.join, List.foldl_cons]
  rw [key ss ("" ++ s), String.empty_append]

theorem emitLoop_eq {FS : Type} (L : Lib FS) :
    ∀ (certs : List Certificate) (buf : String),
      emitLoop L certs buf =
        match statementsOf L certs with
        | .error err => .error err
        | .ok ss => .ok (buf ++ String.join ss) := by
  intro certs
  induction certs with
  | nil => intro buf; simp [emitLoop, statementsOf, String.join]
  | cons c cs ih =>
    intro buf
    simp only [emitLoop, statementsOf]
    cases L.gzipBest c.Raw with
    | error e => rfl
    | ok gz =>
      simp only [ih]
      cases statementsOf L cs with
      | error e => rfl
      | ok ss => simp [join_cons, String.append_assoc]

theorem render_ok_iff {FS : Type} (L : Lib FS) (output : String) (certs : List Certificate)
    (text : String) :
    render L output certs = .ok text ↔
      ∃ ss, statementsOf L certs = .ok ss ∧
        text = marker output ++ header ++ String.join ss ++ footer := by
  simp only [render, emitLoop_eq]
  cases statementsOf L certs with
  | error e => simp
  | ok ss => simp [eq_comm]

theorem statementsOf_ok_iff {FS : Type} (L : Lib FS) :
    ∀ (certs : List Certificate) (ss : List String),
      statementsOf L certs = .ok ss ↔
        List.Forall₂ (fun c s => ∃ gz, L.gzipBest c.Raw = .ok gz ∧
          s = statement L c.RawSubject c.SubjectKeyId gz) certs ss := by
  intro certs
  induction certs with
  | nil => intro ss; cases ss <;> simp [statementsOf]
  | cons c cs ih =>
    intro ss
    simp only [statementsOf]
    cases hg : L.gzipBest c.Raw with
    | error e =>
      constructor
      · intro h; cases h
      · intro h
        cases h with
        | cons h1 _ =>
          obtain ⟨gz, h1, _⟩ := h1
          rw [hg] at h1; cases h1
    | ok gz =>
      cases hr : statementsOf L cs with
      | error e =>
        constructor
        · intro h; cases h
        · intro h
          cases h with
          | cons _ h2 =>
            rw [← ih] at h2
            rw [hr] at h2; cases h2
      | ok ss0 =>
        constructor
        · intro h
          cases h
          exact List.Forall₂.cons ⟨gz, hg, rfl⟩ ((ih ss0).1 hr)
        · intro h
          cases h with
          | cons h1 h2 =>
            obtain ⟨gz1, h1, rfl⟩ := h1
            rw [hg] at h1
            cases h1
            have := (ih _).2 h2
            rw [hr] at this
            cases this
            rfl

theorem render_statements {FS : Type} (L : Lib FS) (output : String)
    (certs : List Certificate) (text : String) (h : render L output certs = .ok text) :
    ∃ ss, statementsOf L certs = .ok ss ∧
      text = marker output ++ header ++ String.join ss ++ footer ∧
      ss.length = certs.length := by
  obtain ⟨ss, hss, ht⟩ := (render_ok_iff L output certs text).1 h
  exact ⟨ss, hss, ht, ((statementsOf_ok_iff L certs ss).1 hss).length_eq.symm⟩

theorem accepted_false_iff (b : Block) :
    accepted b = false ↔ (b.blockType ≠ "CERTIFICATE" ∨ b.Headers ≠ []) := by
  simp only [accepted, Bool.and_eq_false_iff, beq_eq_false_iff_ne, ne_eq, List.length_eq_zero]

theorem first_failing_block (parse : Bytes → Except String Certificate) :
    ∀ bs : List Block,
      (∃ b ∈ bs, accepted b = true ∧ ∃ e, parse b.Bytes = .error e) →
      ∃ pre b post e, bs = pre ++ b :: post ∧
        (∀ x ∈ pre, accepted x = true → ∃ c, parse x.Bytes = .ok c) ∧
        accepted b = true ∧ parse b.Bytes = .error e := by
  intro bs
  induction bs with
  | nil => rintro ⟨b, hb, _⟩; cases hb
  | cons x xs ih =>
    rintro ⟨b, hb, hacc, e, he⟩
    by_cases hx : accepted x = true ∧ ∃ e0, parse x.Bytes = .error e0
    · obtain ⟨hxa, e0, he0⟩ := hx
      exact ⟨[], x, xs, e0, rfl, by simp, hxa, he0⟩
    · have hbx : b ∈ xs := by
        rcases List.mem_cons.1 hb with rfl | h
        · exact absurd ⟨hacc, e, he⟩ hx
        · exact h
      obtain ⟨pre, b0, post, e0, h1, h2, h3, h4⟩ := ih ⟨b, hbx, hacc, e, he⟩
      refine ⟨x :: pre, b0, post, e0, by simp [h1], ?_, h3, h4⟩
      intro y hy hya
      rcases List.mem_cons.1 hy with rfl | hy
      · cases hp : parse y.Bytes with
        | ok c => exact ⟨c, rfl⟩
        | error e1 => exact absurd ⟨hya, e1, hp⟩ hx
      · exact h2 y hy hya

theorem decodeAll_filter_error (parse : Bytes → Except String Certificate)
    (pre post : List Block) (b : Block) (e : String)
    (hpre : ∀ x ∈ pre, accepted x = true → ∃ c, parse x.Bytes = .ok c)
    (hb : accepted b = true) (he : parse b.Bytes = .error e) :
    decodeAll parse ((pre ++ b :: post).filter accepted) = .error e := by
  rw [List.filter_append, List.filter_cons, if_pos hb]
  apply decodeAll_error parse e b _ he
  intro x hx
  rw [List.mem_filter] at hx
  exact hpre x hx.1 hx.2

theorem forall₂_getElem? {α β : Type} {R : α → β → Prop} :
    ∀ {l1 : List α} {l2 : List β}, List.Forall₂ R l1 l2 →
      ∀ (i : Nat) (a : α), l1[i]? = some a → ∃ b, l2[i]? = some b ∧ R a b := by
  intro l1 l2 h
  induction h with
  | nil => intro i a h; simp at h
  | cons hab _ ih =>
    intro i a h
    cases i with
    | zero =>
      simp at h
      subst h
      exact ⟨_, by simp, hab⟩
    | succ j =>
      simp at h
      obtain ⟨b, hb, hr⟩ := ih j a h
      exact ⟨b, by simpa using hb, hr⟩

theorem forall₂_count_le {α β : Type} [BEq α] [LawfulBEq α] [BEq β] [LawfulBEq β]
    {R : α → β → Prop} (a : α) (b : β) (hR : ∀ b2, R a b2 → b2 = b) :
    ∀ {l1 : List α} {l2 : List β}, List.Forall₂ R l1 l2 → l1.count a ≤ l2.count b := by
  intro l1 l2 h
  induction h with
  | nil => simp
  | @cons x y xs ys hxy _ ih =>
    by_cases hx : x = a
    · subst hx
      have := hR y hxy
      subst this
      simp only [List.count_cons_self]
      omega
    · rw [List.count_cons_of_ne (Ne.symm hx)]
      exact Nat.le_trans ih (List.count_le_count_cons _ _ _)

theorem two_positions {α : Type} [BEq α] [LawfulBEq α] (a : α) :
    ∀ l : List α, 2 ≤ l.count a → ∃ i j : Nat, i < j ∧ l[i]? = some a ∧ l[j]? = some a := by
  intro l
  induction l with
  | nil => intro h; simp at h
  | cons x xs ih =>
    intro h
    by_cases hx : x = a
    · subst hx
      rw [List.count_cons_self] at h
      have hpos : 0 < xs.count x := by omega
      have hmem : x ∈ xs := List.count_pos_iff.1 hpos
      obtain ⟨j, hj, hget⟩ := List.getElem_of_mem hmem
      refine ⟨0, j + 1, by omega, by simp, ?_⟩
      simp [List.getElem?_eq_getElem hj, hget]
    · rw [List.count_cons_of_ne (Ne.symm hx)] at h
      obtain ⟨i, j, hij, hi, hj⟩ := ih h
      exact ⟨i + 1, j + 1, by omega, by simpa using hi, by simpa using hj⟩

theorem selectLoop_mem {FS : Type} (L : Lib FS) :
    ∀ (fuel : Nat) (data : Bytes) (acc certs : List Certificate),
      selectLoop L fuel data acc = some (certs, none) →
      ∀ c ∈ certs, c ∈ acc ∨ ∃ der, L.parseCertificate der = .ok c := by
  intro fuel
  induction fuel with
  | zero =>
    intro data acc certs h c hc
    simp only [selectLoop] at h
    split_ifs at h
    cases h
    exact Or.inl hc
  | succ n ih =>
    intro data acc certs h c hc
    simp only [selectLoop] at h
    split_ifs at h with hpos
    · rcases hdec : L.pemDecode data with ⟨_ | b, rest⟩
      · rw [hdec] at h
        cases h
        exact Or.inl hc
      · rw [hdec] at h
        simp only at h
        split_ifs at h
        · exact ih rest acc certs h c hc
        · cases hp : L.parseCertificate b.Bytes with
          | error e => rw [hp] at h; cases h
          | ok c0 =>
            rw [hp] at h
            rcases ih rest (acc ++ [c0]) certs h c hc with hm | hm
            · rcases List.mem_append.1 hm with hm | hm
              · exact Or.inl hm
              · rw [List.mem_singleton] at hm
                subst hm
                exact Or.inr ⟨_, hp⟩
            · exact Or.inr hm
    · cases h
      exact Or.inl hc

/-! ## The miniature library -/

theorem toyDecode_shrinks : Shrinks toyDecode := by
  intro data b rest h
  match data, h with
  | [], h => simp [toyDecode] at h
  | [_], h => simp [toyDecode] at h
  | t :: p :: tl, h =>
    simp only [toyDecode] at h
    split_ifs at h <;> simp at h <;> (obtain ⟨_, rfl⟩ := h; simp only [List.length_cons]; omega)

/-! ## Arithmetic of the bit operations -/

theorem or_eq_add (a b m k : Nat) (hm : m = 2 ^ k) (hb : b < m) (ha : a % m = 0) :
    a ||| b = a + b := by
  subst hm
  have h := Nat.mul_add_lt_is_or hb (a / 2 ^ k)
  have h2 : 2 ^ k * (a / 2 ^ k) = a := by
    have := Nat.div_add_mod a (2 ^ k)
    omega
  rw [h2] at h
  exact h.symm

theorem and_mask (x k : Nat) : x &&& (2 ^ k - 1) = x % 2 ^ k :=
  Nat.and_pow_two_sub_one_eq_mod x k

theorem and_3F (x : Nat) : x &&& 0x3F = x % 64 := and_mask x 6
theorem and_1F (x : Nat) : x &&& 0x1F = x % 32 := and_mask x 5
theorem and_0F (x : Nat) : x &&& 0x0F = x % 16 := and_mask x 4
theorem and_07 (x : Nat) : x &&& 0x07 = x % 8 := and_mask x 3

theorem byte_ofNat_toNat (b : UInt8) : UInt8.ofNat b.toNat = b := by
  cases b with
  | mk v => simp [UInt8.ofNat, UInt8.toNat]

theorem byte_eq_of_toNat (b : UInt8) (n : Nat) (h : n = b.toNat) : UInt8.ofNat n = b := by
  rw [h]; exact byte_ofNat_toNat b

theorem byte_lt (b : UInt8) : b.toNat < 256 := UInt8.toNat_lt b

/-! ## UTF-8: encoding a decoded rune gives the bytes back -/

theorem enc1 (b0 : UInt8) (h0 : b0.toNat < 0x80) :
    ValidRune b0.toNat = true ∧ AppendRune b0.toNat = [b0] := by
  constructor
  · simp only [ValidRune, MaxRune, Bool.or_eq_true, decide_eq_true_eq, Bool.and_eq_true]
    omega
  · have h : b0.toNat ≤ 0x7F := by omega
    simp only [AppendRune, h, if_true, byte_ofNat_toNat]

theorem enc2 (b0 b1 : UInt8) (h0 : 0xC2 ≤ b0.toNat ∧ b0.toNat ≤ 0xDF)
    (h1 : 0x80 ≤ b1.toNat ∧ b1.toNat ≤ 0xBF) :
    ValidRune ((b0.toNat &&& 0x1F) <<< 6 ||| (b1.toNat &&& 0x3F)) = true ∧
    AppendRune ((b0.toNat &&& 0x1F) <<< 6 ||| (b1.toNat &&& 0x3F)) = [b0, b1] ∧
    0x80 ≤ ((b0.toNat &&& 0x1F) <<< 6 ||| (b1.toNat &&& 0x3F)) := by
  have hr : (b0.toNat &&& 0x1F) <<< 6 ||| (b1.toNat &&& 0x3F) =
      (b0.toNat - 0xC0) * 64 + (b1.toNat - 0x80) := by
    rw [and_1F, and_3F, Nat.shiftLeft_eq]
    rw [or_eq_add _ _ 64 6 (by norm_num) (by omega) (by omega)]
    omega
  rw [hr]
  generalize hrr : (b0.toNat - 0xC0) * 64 + (b1.toNat - 0x80) = r
  have hlo : 0x80 ≤ r := by omega
  have hhi : r ≤ 0x7FF := by omega
  refine ⟨?_, ?_, hlo⟩
  · simp only [ValidRune, MaxRune, Bool.or_eq_true, decide_eq_true_eq, Bool.and_eq_true]
    omega
  · have hn : ¬ r ≤ 0x7F := by omega
    simp only [AppendRune, hn, hhi, if_true, if_false]
    rw [and_3F, Nat.shiftRight_eq_div_pow]
    rw [or_eq_add 0xC0 _ 32 5 (by norm_num) (by norm_num; omega) (by norm_num),
      or_eq_add 0x80 _ 64 6 (by norm_num) (by omega) (by norm_num)]
    rw [byte_eq_of_toNat b0 _ (by norm_num; omega), byte_eq_of_toNat b1 _ (by omega)]

theorem enc3 (b0 b1 b2 : UInt8) (h0 : 0xE0 ≤ b0.toNat ∧ b0.toNat ≤ 0xEF)
    (h1 : 0x80 ≤ b1.toNat ∧ b1.toNat ≤ 0xBF)
    (hE0 : b0.toNat = 0xE0 → 0xA0 ≤ b1.toNat) (hED : b0.toNat = 0xED → b1.toNat ≤ 0x9F)
    (h2 : 0x80 ≤ b2.toNat ∧ b2.toNat ≤ 0xBF) :
    ValidRune ((b0.toNat &&& 0x0F) <<< 12 ||| (b1.toNat &&& 0x3F) <<< 6
      ||| (b2.toNat &&& 0x3F)) = true ∧
    AppendRune ((b0.toNat &&& 0x0F) <<< 12 ||| (b1.toNat &&& 0x3F) <<< 6
      ||| (b2.toNat &&& 0x3F)) = [b0, b1, b2] ∧
    0x80 ≤ ((b0.toNat &&& 0x0F) <<< 12 ||| (b1.toNat &&& 0x3F) <<< 6
      ||| (b2.toNat &&& 0x3F)) := by
  have hr : (b0.toNat &&& 0x0F) <<< 12 ||| (b1.toNat &&& 0x3F) <<< 6 ||| (b2.toNat &&& 0x3F) =
      (b0.toNat - 0xE0) * 4096 + (b1.toNat - 0x80) * 64 + (b2.toNat - 0x80) := by
    rw [and_0F, and_3F, and_3F, Nat.shiftLeft_eq, Nat.shiftLeft_eq]
    rw [or_eq_add (b0.toNat % 16 * 2 ^ 12) (b1.toNat % 64 * 2 ^ 6) 4096 12
      (by norm_num) (by omega) (by omega)]
    rw [or_eq_add _ (b2.toNat % 64) 64 6 (by norm_num) (by omega) (by omega)]
    omega
  rw [hr]
  generalize hrr : (b0.toNat - 0xE0) * 4096 + (b1.toNat - 0x80) * 64 + (b2.toNat - 0x80) = r
  have hlo : 0x800 ≤ r := by
    by_cases h : b0.toNat = 0xE0
    · have := hE0 h; omega
    · omega
  have hhi : r ≤ 0xFFFF := by omega
  have hsur : ¬ (0xD800 ≤ r ∧ r ≤ 0xDFFF) := by
    by_cases h : b0.toNat = 0xED
    · have := hED h; omega
    · omega
  refine ⟨?_, ?_, by omega⟩
  · simp only [ValidRune, MaxRune, Bool.or_eq_true, decide_eq_true_eq, Bool.and_eq_true]
    omega
  · have hn1 : ¬ r ≤ 0x7F := by omega
    have hn2 : ¬ r ≤ 0x7FF := by omega
    have hn3 : ¬ (r > MaxRune ∨ (0xD800 ≤ r ∧ r ≤ 0xDFFF)) := by
      simp only [MaxRune]; omega
    simp only [AppendRune, hn1, hn2, hn3, hhi, if_true, if_false]
    rw [and_3F, and_3F, Nat.shiftRight_eq_div_pow, Nat.shiftRight_eq_div_pow]
    rw [or_eq_add 0xE0 _ 16 4 (by norm_num) (by norm_num; omega) (by norm_num),
      or_eq_add 0x80 _ 64 6 (by norm_num) (by omega) (by norm_num),
      or_eq_add 0x80 _ 64 6 (by norm_num) (by omega) (by norm_num)]
    rw [byte_eq_of_toNat b0 _ (by norm_num; omega), byte_eq_of_toNat b1 _ (by norm_num; omega),
      byte_eq_of_toNat b2 _ (by omega)]

theorem enc4 (b0 b1 b2 b3 : UInt8) (h0 : 0xF0 ≤ b0.toNat ∧ b0.toNat ≤ 0xF4)
    (h1 : 0x80 ≤ b1.toNat ∧ b1.toNat ≤ 0xBF)
    (hF0 : b0.toNat = 0xF0 → 0x90 ≤ b1.toNat) (hF4 : b0.toNat = 0xF4 → b1.toNat ≤ 0x8F)
    (h2 : 0x80 ≤ b2.toNat ∧ b2.toNat ≤ 0xBF) (h3 : 0x80 ≤ b3.toNat ∧ b3.toNat ≤ 0xBF) :
    ValidRune ((b0.toNat &&& 0x07) <<< 18 ||| (b1.toNat &&& 0x3F) <<< 12
      ||| (b2.toNat &&& 0x3F) <<< 6 ||| (b3.toNat &&& 0x3F)) = true ∧
    AppendRune ((b0.toNat &&& 0x07) <<< 18 ||| (b1.toNat &&& 0x3F) <<< 12
      ||| (b2.toNat &&& 0x3F) <<< 6 ||| (b3.toNat &&& 0x3F)) = [b0, b1, b2, b3] ∧
    0x80 ≤ ((b0.toNat &&& 0x07) <<< 18 ||| (b1.toNat &&& 0x3F) <<< 12
      ||| (b2.toNat &&& 0x3F) <<< 6 ||| (b3.toNat &&& 0x3F)) := by
  have hr : (b0.toNat &&& 0x07) <<< 18 ||| (b1.toNat &&& 0x3F) <<< 12
      ||| (b2.toNat &&& 0x3F) <<< 6 ||| (b3.toNat &&& 0x3F) =
      (b0.toNat - 0xF0) * 262144 + (b1.toNat - 0x80) * 4096 + (b2.toNat - 0x80) * 64
        + (b3.toNat - 0x80) := by
    rw [and_07, and_3F, and_3F, and_3F, Nat.shiftLeft_eq, Nat.shiftLeft_eq, Nat.shiftLeft_eq]
    rw [or_eq_add (b0.toNat % 8 * 2 ^ 18) (b1.toNat % 64 * 2 ^ 12) 262144 18
      (by norm_num) (by omega) (by omega)]
    rw [or_eq_add _ (b2.toNat % 64 * 2 ^ 6) 4096 12 (by norm_num) (by omega) (by omega)]
    rw [or_eq_add _ (b3.toNat % 64) 64 6 (by norm_num) (by omega) (by omega)]
    omega
  rw [hr]
  generalize hrr : (b0.toNat - 0xF0) * 262144 + (b1.toNat - 0x80) * 4096
    + (b2.toNat - 0x80) * 64 + (b3.toNat - 0x80) = r
  have hlo : 0x10000 ≤ r := by
    by_cases h : b0.toNat = 0xF0
    · have := hF0 h; omega
    · omega
  have hhi : r ≤ 0x10FFFF := by
    by_cases h : b0.toNat = 0xF4
    · have := hF4 h; omega
    · omega
  refine ⟨?_, ?_, by omega⟩
  · simp only [ValidRune, MaxRune, Bool.or_eq_true, decide_eq_true_eq, Bool.and_eq_true]
    omega
  · have hn1 : ¬ r ≤ 0x7F := by omega
    have hn2 : ¬ r ≤ 0x7FF := by omega
    have hn3 : ¬ (r > MaxRune ∨ (0xD800 ≤ r ∧ r ≤ 0xDFFF)) := by
      simp only [MaxRune]; omega
    have hn4 : ¬ r ≤ 0xFFFF := by omega
    simp only [AppendRune, hn1, hn2, hn3, hn4, if_false]
    rw [and_3F, and_3F, and_3F, Nat.shiftRight_eq_div_pow, Nat.shiftRight_eq_div_pow,
      Nat.shiftRight_eq_div_pow]
    rw [or_eq_add 0xF0 _ 8 3 (by norm_num) (by norm_num; omega) (by norm_num),
      or_eq_add 0x80 _ 64 6 (by norm_num) (by omega) (by norm_num),
      or_eq_add 0x80 _ 64 6 (by norm_num) (by omega) (by norm_num),
      or_eq_add 0x80 _ 64 6 (by norm_num) (by omega) (by norm_num)]
    rw [byte_eq_of_toNat b0 _ (by norm_num; omega), byte_eq_of_toNat b1 _ (by norm_num; omega),
      byte_eq_of_toNat b2 _ (by norm_num; omega), byte_eq_of_toNat b3 _ (by omega)]

theorem first_ascii (n : Nat) (h : n < 0x80) : first n = 0xF0 := by
  simp [first, h]

theorem first_invalid (n : Nat) (h1 : ¬ n < 0x80) (h2 : n < 0xC2 ∨ 0xF4 < n) :
    first n = 0xF1 := by
  simp only [first]
  split_ifs <;> first | rfl | omega

theorem first_two (n : Nat) (h1 : ¬ n < 0xC2) (h2 : n < 0xE0) : first n = 0x02 := by
  simp only [first]
  split_ifs <;> first | rfl | omega

theorem first_three (n : Nat) (h1 : ¬ n < 0xE0) (h2 : n < 0xF0) :
    ¬ first n ≥ 0xF0 ∧ first n &&& 7 = 3 ∧
    acceptRanges (first n >>> 4) =
      (if n = 0xE0 then 0xA0 else 0x80, if n = 0xED then 0x9F else 0xBF) := by
  simp only [first]
  split_ifs <;> first | omega | decide

theorem first_four (n : Nat) (h1 : ¬ n < 0xF0) (h2 : ¬ 0xF4 < n) :
    ¬ first n ≥ 0xF0 ∧ first n &&& 7 = 4 ∧
    acceptRanges (first n >>> 4) =
      (if n = 0xF0 then 0x90 else 0x80, if n = 0xF4 then 0x8F else 0xBF) := by
  simp only [first]
  split_ifs <;> first | omega | decide

theorem decode_spec (b0 : UInt8) (t0 : Bytes) :
    ((DecodeRuneInString (b0 :: t0)).2 = 1 ∧ (DecodeRuneInString (b0 :: t0)).1 = RuneError) ∨
    (1 ≤ (DecodeRuneInString (b0 :: t0)).2 ∧
      ValidRune (DecodeRuneInString (b0 :: t0)).1 = true ∧
      AppendRune (DecodeRuneInString (b0 :: t0)).1 =
        (b0 :: t0).take (DecodeRuneInString (b0 :: t0)).2) := by
  have hb := byte_lt b0
  have e1 : (0xF0 : Nat) &&& 1 = 0 := by decide
  have e2 : (0xF1 : Nat) &&& 1 = 1 := by decide
  have k1 : (0x02 : Nat) &&& 7 = 2 ∧ (0x02 : Nat) >>> 4 = 0 := by decide
  by_cases c1 : b0.toNat < 0x80
  · right
    have hf := first_ascii b0.toNat c1
    have hd : DecodeRuneInString (b0 :: t0) = (b0.toNat, 1) := by
      simp [DecodeRuneInString, hf, e1]
    rw [hd]
    exact ⟨Nat.le_refl _, (enc1 b0 c1).1, by simpa using (enc1 b0 c1).2⟩
  by_cases c2 : b0.toNat < 0xC2 ∨ 0xF4 < b0.toNat
  · left
    have hf := first_invalid b0.toNat c1 c2
    have hd : DecodeRuneInString (b0 :: t0) = (RuneError, 1) := by
      simp [DecodeRuneInString, hf, e2]
    rw [hd]
    exact ⟨rfl, rfl⟩
  by_cases c3 : b0.toNat < 0xE0
  · have hf := first_two b0.toNat (by omega) c3
    match t0 with
    | [] => left; simp [DecodeRuneInString, hf, k1]
    | b1 :: t1 =>
      by_cases hr : b1.toNat < 0x80 ∨ 0xBF < b1.toNat
      · left; simp [DecodeRuneInString, hf, acceptRanges, hr, k1]
      · right
        have hd : DecodeRuneInString (b0 :: b1 :: t1) =
            ((b0.toNat &&& 0x1F) <<< 6 ||| (b1.toNat &&& 0x3F), 2) := by
          simp [DecodeRuneInString, hf, acceptRanges, hr, k1]
        rw [hd]
        have h := enc2 b0 b1 (by omega) (by omega)
        exact ⟨by norm_num, h.1, by simpa using h.2.1⟩
  by_cases c4 : b0.toNat < 0xF0
  · -- three-byte sequences
    obtain ⟨hge, hsz, hacc⟩ := first_three b0.toNat c3 c4
    match t0 with
    | [] => left; simp [DecodeRuneInString, hge, hsz]
    | [b1] =>
      left
      simp only [DecodeRuneInString, hge, hsz, hacc, if_false]
      split_ifs <;> simp_all
    | b1 :: b2 :: t2 =>
      by_cases hr1 : b1.toNat < (if b0.toNat = 0xE0 then 0xA0 else 0x80) ∨
          (if b0.toNat = 0xED then 0x9F else 0xBF) < b1.toNat
      · left; simp [DecodeRuneInString, hge, hsz, hacc, hr1]
      by_cases hr2 : b2.toNat < 0x80 ∨ 0xBF < b2.toNat
      · left; simp [DecodeRuneInString, hge, hsz, hacc, hr1, hr2]
      right
      have hd : DecodeRuneInString (b0 :: b1 :: b2 :: t2) =
          ((b0.toNat &&& 0x0F) <<< 12 ||| (b1.toNat &&& 0x3F) <<< 6 ||| (b2.toNat &&& 0x3F), 3) := by
        simp [DecodeRuneInString, hge, hsz, hacc, hr1, hr2]
      rw [hd]
      have hE0 : b0.toNat = 0xE0 → 0xA0 ≤ b1.toNat := by
        intro h; simp only [h, if_true] at hr1; omega
      have hED : b0.toNat = 0xED → b1.toNat ≤ 0x9F := by
        intro h; simp only [h] at hr1; norm_num at hr1; omega
      have h1 : 0x80 ≤ b1.toNat ∧ b1.toNat ≤ 0xBF := by
        split_ifs at hr1 <;> omega
      have h := enc3 b0 b1 b2 (by omega) h1 hE0 hED (by omega)
      exact ⟨by norm_num, h.1, by simpa using h.2.1⟩
  · -- four-byte sequences
    obtain ⟨hge, hsz, hacc⟩ := first_four b0.toNat c4 (by omega)
    match t0 with
    | [] => left; simp [DecodeRuneInString, hge, hsz]
    | [b1] =>
      left
      simp only [DecodeRuneInString, hge, hsz, hacc, if_false]
      split_ifs <;> simp_all
    | [b1, b2] =>
      left
      simp only [DecodeRuneInString, hge, hsz, hacc, if_false]
      split_ifs <;> simp_all
    | b1 :: b2 :: b3 :: t3 =>
      by_cases hr1 : b1.toNat < (if b0.toNat = 0xF0 then 0x90 else 0x80) ∨
          (if b0.toNat = 0xF4 then 0x8F else 0xBF) < b1.toNat
      · left; simp [DecodeRuneInString, hge, hsz, hacc, hr1]
      by_cases hr2 : b2.toNat < 0x80 ∨ 0xBF < b2.toNat
      · left; simp [DecodeRuneInString, hge, hsz, hacc, hr1, hr2]
      by_cases hr3 : b3.toNat < 0x80 ∨ 0xBF < b3.toNat
      · left; simp [DecodeRuneInString, hge, hsz, hacc, hr1, hr2, hr3]
      right
      have hd : DecodeRuneInString (b0 :: b1 :: b2 :: b3 :: t3) =
          ((b0.toNat &&& 0x07) <<< 18 ||| (b1.toNat &&& 0x3F) <<< 12
            ||| (b2.toNat &&& 0x3F) <<< 6 ||| (b3.toNat &&& 0x3F), 4) := by
        simp [DecodeRuneInString, hge, hsz, hacc, hr1, hr2, hr3]
      rw [hd]
      have hF0 : b0.toNat = 0xF0 → 0x90 ≤ b1.toNat := by
        intro h; simp only [h, if_true] at hr1; omega
      have hF4 : b0.toNat = 0xF4 → b1.toNat ≤ 0x8F := by
        intro h; simp only [h] at hr1; norm_num at hr1; omega
      have h1 : 0x80 ≤ b1.toNat ∧ b1.toNat ≤ 0xBF := by
        split_ifs at hr1 <;> omega
      have h := enc4 b0 b1 b2 b3 (by omega) h1 hF0 hF4 (by omega) (by omega)
      exact ⟨by norm_num, h.1, by simpa using h.2.1⟩

/-! ## Reading back what `appendEscapedRune` writes -/

theorem unhex_lowerhex : ∀ d, d < 16 → unhex (lowerhex d) = some d := by decide

theorem validRune_isValidChar (r : Nat) (h : ValidRune r = true) : r.isValidChar := by
  simp only [ValidRune, MaxRune, Bool.or_eq_true, decide_eq_true_eq, Bool.and_eq_true] at h
  simp only [Nat.isValidChar]
  omega

theorem toNat_ofNat_of_valid (r : Nat) (h : ValidRune r = true) : (Char.ofNat r).toNat = r := by
  have hv := validRune_isValidChar r h
  simp only [Char.ofNat, hv, dite_true, Char.ofNatAux, Char.toNat]
  have : r < 2 ^ 32 := by
    simp only [Nat.isValidChar] at hv
    omega
  simp [UInt32.toNat, BitVec.toNat_ofNatLt]

theorem char_eq_iff (c d : Char) : c = d ↔ c.toNat = d.toNat := by
  constructor
  · intro h; rw [h]
  · intro h
    have := congrArg Char.ofNat h
    rwa [Char.ofNat_toNat, Char.ofNat_toNat] at this

theorem hexValue2 (a b : Nat) (ha : a < 16) (hb : b < 16) :
    hexValue 0 [lowerhex a, lowerhex b] = some (a * 16 + b) := by
  simp [hexValue, unhex_lowerhex a ha, unhex_lowerhex b hb]

theorem hexValue4 (a b c d : Nat) (ha : a < 16) (hb : b < 16) (hc : c < 16) (hd : d < 16) :
    hexValue 0 [lowerhex a, lowerhex b, lowerhex c, lowerhex d] =
      some (a * 4096 + (b * 256 + (c * 16 + d))) := by
  simp only [hexValue, unhex_lowerhex a ha, unhex_lowerhex b hb, unhex_lowerhex c hc,
    unhex_lowerhex d hd, Option.some.injEq]
  omega

theorem hexValue8 (a b c d e f g h : Nat) (ha : a < 16) (hb : b < 16) (hc : c < 16)
    (hd : d < 16) (he : e < 16) (hf : f < 16) (hg : g < 16) (hh : h < 16) :
    hexValue 0 [lowerhex a, lowerhex b, lowerhex c, lowerhex d,
        lowerhex e, lowerhex f, lowerhex g, lowerhex h] =
      some (a * 268435456 + (b * 16777216 + (c * 1048576 + (d * 65536
        + (e * 4096 + (f * 256 + (g * 16 + h))))))) := by
  simp only [hexValue, unhex_lowerhex a ha, unhex_lowerhex b hb, unhex_lowerhex c hc,
    unhex_lowerhex d hd, unhex_lowerhex e he, unhex_lowerhex f hf, unhex_lowerhex g hg,
    unhex_lowerhex h hh, Option.some.injEq]
  omega

theorem read_hex_byte (f a b : Nat) (ha : a < 16) (hb : b < 16) (tail : List Char) :
    literalLoop (f + 1) ('\\' :: 'x' :: lowerhex a :: lowerhex b :: tail) =
      (literalLoop f tail).map (UInt8.ofNat (a * 16 + b) :: ·) := by
  simp [literalLoop, hexValue2 a b ha hb]

theorem read_little_u (f a b c d : Nat) (ha : a < 16) (hb : b < 16) (hc : c < 16)
    (hd : d < 16) (hv : ValidRune (a * 4096 + (b * 256 + (c * 16 + d))) = true)
    (tail : List Char) :
    literalLoop (f + 1)
        ('\\' :: 'u' :: lowerhex a :: lowerhex b :: lowerhex c :: lowerhex d :: tail) =
      (literalLoop f tail).map (AppendRune (a * 4096 + (b * 256 + (c * 16 + d))) ++ ·) := by
  simp [literalLoop, hexValue4 a b c d ha hb hc hd, hv]

theorem read_big_u (f a b c d e g h i : Nat) (ha : a < 16) (hb : b < 16) (hc : c < 16)
    (hd : d < 16) (he : e < 16) (hg : g < 16) (hh : h < 16) (hi : i < 16)
    (hv : ValidRune (a * 268435456 + (b * 16777216 + (c * 1048576 + (d * 65536
        + (e * 4096 + (g * 256 + (h * 16 + i))))))) = true)
    (tail : List Char) :
    literalLoop (f + 1)
        ('\\' :: 'U' :: lowerhex a :: lowerhex b :: lowerhex c :: lowerhex d ::
          lowerhex e :: lowerhex g :: lowerhex h :: lowerhex i :: tail) =
      (literalLoop f tail).map (AppendRune (a * 268435456 + (b * 16777216 + (c * 1048576
        + (d * 65536 + (e * 4096 + (g * 256 + (h * 16 + i))))))) ++ ·) := by
  simp [literalLoop, hexValue8 a b c d e g h i ha hb hc hd he hg hh hi, hv]

theorem read_escaped (f : Nat) (e : Char) (b : UInt8) (tail : List Char)
    (h1 : e ≠ 'x') (h2 : e ≠ 'u') (h3 : e ≠ 'U') (h4 : ¬ ('0' ≤ e ∧ e ≤ '7'))
    (h5 : escapedChar e = some b) :
    literalLoop (f + 1) ('\\' :: e :: tail) = (literalLoop f tail).map (b :: ·) := by
  simp [literalLoop, h1, h2, h3, h4, h5]

theorem read_plain (f : Nat) (c : Char) (tail : List Char)
    (h1 : c ≠ '"') (h2 : c ≠ '\\') (h3 : c ≠ '\n') (h4 : c.toNat ≠ 0)
    (h5 : c.toNat ≠ 0xFEFF) :
    literalLoop (f + 1) (c :: tail) = (literalLoop f tail).map (AppendRune c.toNat ++ ·) := by
  simp [literalLoop, h1, h2, h3, h4, h5]

theorem isPrint_facts (tbl : Nat → Bool) (htbl : tbl 0xFEFF = false) (r : Nat)
    (h : IsPrint tbl r = true) : r ≠ 10 ∧ r ≠ 0 ∧ r ≠ 0xFEFF := by
  refine ⟨?_, ?_, ?_⟩
  · rintro rfl; simp [IsPrint] at h
  · rintro rfl; simp [IsPrint] at h
  · rintro rfl; simp [IsPrint, htbl] at h

theorem read_escaped_rune (tbl : Nat → Bool) (htbl : tbl 0xFEFF = false) (r : Nat)
    (hv : ValidRune r = true) (f : Nat) (tail : List Char) :
    literalLoop (f + 1) (appendEscapedRune tbl r ++ tail) =
      (literalLoop f tail).map (AppendRune r ++ ·) := by
  have hmax : r ≤ 0x10FFFF := by
    simp only [ValidRune, MaxRune, Bool.or_eq_true, decide_eq_true_eq, Bool.and_eq_true] at hv
    omega
  unfold appendEscapedRune
  by_cases c1 : r = 0x22 ∨ r = 0x5C
  · rw [if_pos c1]
    rcases c1 with rfl | rfl
    · exact read_escaped f '"' 0x22 tail (by decide) (by decide) (by decide) (by decide) rfl
    · exact read_escaped f '\\' 0x5C tail (by decide) (by decide) (by decide) (by decide) rfl
  rw [if_neg c1]
  by_cases c2 : IsPrint tbl r = true
  · rw [if_pos c2]
    obtain ⟨p1, p2, p3⟩ := isPrint_facts tbl htbl r c2
    have hc : runeChar r = Char.ofNat r := by simp [runeChar, hv]
    have hn : (Char.ofNat r).toNat = r := toNat_ofNat_of_valid r hv
    rw [hc]
    have := read_plain f (Char.ofNat r) tail
      (by intro h; rw [char_eq_iff, hn] at h; exact c1 (Or.inl h))
      (by intro h; rw [char_eq_iff, hn] at h; exact c1 (Or.inr h))
      (by intro h; rw [char_eq_iff, hn] at h; exact p1 h)
      (by rw [hn]; exact p2) (by rw [hn]; exact p3)
    rw [hn] at this
    exact this
  rw [if_neg c2]
  by_cases c3 : r = 7
  · rw [if_pos c3]; subst c3
    exact read_escaped f 'a' 7 tail (by decide) (by decide) (by decide) (by decide) rfl
  rw [if_neg c3]
  by_cases c4 : r = 8
  · rw [if_pos c4]; subst c4
    exact read_escaped f 'b' 8 tail (by decide) (by decide) (by decide) (by decide) rfl
  rw [if_neg c4]
  by_cases c5 : r = 12
  · rw [if_pos c5]; subst c5
    exact read_escaped f 'f' 12 tail (by decide) (by decide) (by decide) (by decide) rfl
  rw [if_neg c5]
  by_cases c6 : r = 10
  · rw [if_pos c6]; subst c6
    exact read_escaped f 'n' 10 tail (by decide) (by decide) (by decide) (by decide) rfl
  rw [if_neg c6]
  by_cases c7 : r = 13
  · rw [if_pos c7]; subst c7
    exact read_escaped f 'r' 13 tail (by decide) (by decide) (by decide) (by decide) rfl
  rw [if_neg c7]
  by_cases c8 : r = 9
  · rw [if_pos c8]; subst c8
    exact read_escaped f 't' 9 tail (by decide) (by decide) (by decide) (by decide) rfl
  rw [if_neg c8]
  by_cases c9 : r = 11
  · rw [if_pos c9]; subst c9
    exact read_escaped f 'v' 11 tail (by decide) (by decide) (by decide) (by decide) rfl
  rw [if_neg c9]
  by_cases c10 : r < 0x20 ∨ r = 0x7F
  · rw [if_pos c10]
    have hr : r ≤ 0x7F := by omega
    have h := read_hex_byte f ((r % 256) >>> 4) ((r % 256) &&& 0xF)
      (by rw [Nat.shiftRight_eq_div_pow]; norm_num; omega) (by rw [and_0F]; omega) tail
    simp only [List.cons_append, List.nil_append]
    rw [h]
    have hval : (r % 256) >>> 4 * 16 + ((r % 256) &&& 0xF) = r := by
      rw [Nat.shiftRight_eq_div_pow, and_0F]; norm_num; omega
    rw [hval]
    simp [AppendRune, hr]
  rw [if_neg c10]
  have c11 : ¬ ((!ValidRune r) = true) := by simp [hv]
  rw [if_neg c11]
  by_cases c12 : r < 0x10000
  · rw [if_pos c12]
    have h := read_little_u f (r >>> 12 &&& 0xF) (r >>> 8 &&& 0xF) (r >>> 4 &&& 0xF)
      (r >>> 0 &&& 0xF)
      (by rw [and_0F]; omega) (by rw [and_0F]; omega) (by rw [and_0F]; omega)
      (by rw [and_0F]; omega)
    have hval : (r >>> 12 &&& 0xF) * 4096 + ((r >>> 8 &&& 0xF) * 256
        + ((r >>> 4 &&& 0xF) * 16 + (r >>> 0 &&& 0xF))) = r := by
      simp only [Nat.shiftRight_eq_div_pow, and_0F]; norm_num; omega
    rw [hval] at h
    simp only [List.cons_append, List.nil_append]
    exact h hv tail
  · rw [if_neg c12]
    have h := read_big_u f (r >>> 28 &&& 0xF) (r >>> 24 &&& 0xF) (r >>> 20 &&& 0xF)
      (r >>> 16 &&& 0xF) (r >>> 12 &&& 0xF) (r >>> 8 &&& 0xF) (r >>> 4 &&& 0xF)
      (r >>> 0 &&& 0xF)
      (by rw [and_0F]; omega) (by rw [and_0F]; omega) (by rw [and_0F]; omega)
      (by rw [and_0F]; omega) (by rw [and_0F]; omega) (by rw [and_0F]; omega)
      (by rw [and_0F]; omega) (by rw [and_0F]; omega)
    have hval : (r >>> 28 &&& 0xF) * 268435456 + ((r >>> 24 &&& 0xF) * 16777216
        + ((r >>> 20 &&& 0xF) * 1048576 + ((r >>> 16 &&& 0xF) * 65536
        + ((r >>> 12 &&& 0xF) * 4096 + ((r >>> 8 &&& 0xF) * 256
        + ((r >>> 4 &&& 0xF) * 16 + (r >>> 0 &&& 0xF))))))) = r := by
      simp only [Nat.shiftRight_eq_div_pow, and_0F]; norm_num; omega
    rw [hval] at h
    simp only [List.cons_append, List.nil_append]
    exact h hv tail

/-! ## The quoted literal denotes the bytes that were quoted -/

theorem ite_length_pos {c : Prop} [Decidable c] {a b : List Char}
    (ha : 1 ≤ a.length) (hb : 1 ≤ b.length) : 1 ≤ (if c then a else b).length := by
  split <;> assumption

theorem appendEscapedRune_ne_nil (tbl : Nat → Bool) (r : Nat) :
    1 ≤ (appendEscapedRune tbl r).length := by
  unfold appendEscapedRune
  repeat' apply ite_length_pos
  all_goals simp

theorem quoteLoop_nil (tbl : Nat → Bool) (f : Nat) : quoteLoop tbl f [] = [] := by
  cases f <;> rfl

theorem literalLoop_close (f : Nat) : literalLoop (f + 1) ['"'] = some [] := by
  simp [literalLoop]

theorem quote_read (tbl : Nat → Bool) (htbl : tbl 0xFEFF = false) :
    ∀ (n : Nat) (s : Bytes), s.length ≤ n → ∀ f1, s.length ≤ f1 →
      ∀ f2, (quoteLoop tbl f1 s).length + 1 ≤ f2 →
        literalLoop f2 (quoteLoop tbl f1 s ++ ['"']) = some s := by
  intro n
  induction n with
  | zero =>
    intro s hs f1 _ f2 hf2
    have : s = [] := List.length_eq_zero.1 (by omega)
    subst this
    rw [quoteLoop_nil] at hf2 ⊢
    obtain ⟨g, rfl⟩ : ∃ g, f2 = g + 1 := ⟨f2 - 1, by simp at hf2; omega⟩
    exact literalLoop_close g
  | succ n ih =>
    intro s hs f1 hf1 f2 hf2
    match s, hs, hf1, hf2 with
    | [], _, _, hf2 =>
      rw [quoteLoop_nil] at hf2 ⊢
      obtain ⟨g, rfl⟩ : ∃ g, f2 = g + 1 := ⟨f2 - 1, by simp at hf2; omega⟩
      exact literalLoop_close g
    | b0 :: t0, hs, hf1, hf2 =>
      obtain ⟨g1, rfl⟩ : ∃ g, f1 = g + 1 := ⟨f1 - 1, by simp at hf1; omega⟩
      obtain ⟨g2, rfl⟩ : ∃ g, f2 = g + 1 := ⟨f2 - 1, by omega⟩
      have hb := byte_lt b0
      -- the rune and the width the loop works with
      generalize hrw : (if b0.toNat ≥ RuneSelf then DecodeRuneInString (b0 :: t0)
        else (b0.toNat, 1)) = rw at *
      have hspec : (rw.2 = 1 ∧ rw.1 = RuneError) ∨
          (1 ≤ rw.2 ∧ ValidRune rw.1 = true ∧ AppendRune rw.1 = (b0 :: t0).take rw.2) := by
        by_cases hself : b0.toNat ≥ RuneSelf
        · rw [if_pos hself] at hrw
          rw [← hrw]
          exact decode_spec b0 t0
        · rw [if_neg hself] at hrw
          rw [← hrw]
          have hlt : b0.toNat < 0x80 := by simp only [RuneSelf] at hself; omega
          exact Or.inr ⟨Nat.le_refl _, (enc1 b0 hlt).1, by simpa using (enc1 b0 hlt).2⟩
      have hstep : quoteLoop tbl (g1 + 1) (b0 :: t0) =
          (if rw.2 = 1 ∧ rw.1 = RuneError then
            ['\\', 'x', lowerhex (b0.toNat >>> 4), lowerhex (b0.toNat &&& 0xF)]
              ++ quoteLoop tbl g1 ((b0 :: t0).drop rw.2)
          else appendEscapedRune tbl rw.1 ++ quoteLoop tbl g1 ((b0 :: t0).drop rw.2)) := by
        simp only [quoteLoop, hrw]
      rw [hstep] at hf2 ⊢
      by_cases hinv : rw.2 = 1 ∧ rw.1 = RuneError
      · rw [if_pos hinv] at hf2 ⊢
        rw [hinv.1] at hf2 ⊢
        simp only [List.drop_succ_cons, List.drop_zero, List.cons_append, List.nil_append,
          List.length_cons] at hf2 ⊢
        rw [read_hex_byte g2 _ _ (by rw [Nat.shiftRight_eq_div_pow]; norm_num; omega)
          (by rw [and_0F]; omega)]
        have hval : b0.toNat >>> 4 * 16 + (b0.toNat &&& 0xF) = b0.toNat := by
          rw [Nat.shiftRight_eq_div_pow, and_0F]; norm_num; omega
        rw [hval, byte_ofNat_toNat]
        rw [ih t0 (by simp at hs; omega) g1 (by simp at hf1; omega) g2 (by omega)]
        rfl
      · rw [if_neg hinv] at hf2 ⊢
        rcases hspec with h | ⟨hw, hv, henc⟩
        · exact absurd h hinv
        · have hlen := appendEscapedRune_ne_nil tbl rw.1
          rw [List.append_assoc, read_escaped_rune tbl htbl rw.1 hv g2]
          have hdrop : ((b0 :: t0).drop rw.2).length ≤ n := by
            rw [List.length_drop]; simp at hs ⊢; omega
          have hdrop1 : ((b0 :: t0).drop rw.2).length ≤ g1 := by
            rw [List.length_drop]; simp at hf1 ⊢; omega
          rw [ih _ hdrop g1 hdrop1 g2 (by rw [List.length_append] at hf2; omega)]
          simp only [Option.map_some', henc, List.take_append_drop]

theorem goQuote_data (tbl : Nat → Bool) (s : Bytes) :
    (goQuote tbl s).data = '"' :: (quoteLoop tbl s.length s ++ ['"']) := rfl


/-! ## Two runs -/

theorem statement_congr {FS : Type} (L1 L2 : Lib FS) (hquote : L1.quote = L2.quote)
    (a b c : Bytes) : statement L1 a b c = statement L2 a b c := by
  simp only [statement, hquote]

theorem emitLoop_congr {FS : Type} (L1 L2 : Lib FS) (hquote : L1.quote = L2.quote)
    (hgz : ∀ x, L1.gzipBest x = L2.gzipBest x) :
    ∀ (certs : List Certificate) (buf : String),
      emitLoop L1 certs buf = emitLoop L2 certs buf := by
  intro certs
  induction certs with
  | nil => intro buf; rfl
  | cons c cs ih =>
    intro buf
    simp only [emitLoop, hgz c.Raw]
    cases L2.gzipBest c.Raw with
    | error e => rfl
    | ok gz => simp only [statement_congr L1 L2 hquote, ih]

theorem render_congr {FS : Type} (L1 L2 : Lib FS) (hquote : L1.quote = L2.quote)
    (hgz : ∀ x, L1.gzipBest x = L2.gzipBest x) (output : String)
    (certs : List Certificate) : render L1 output certs = render L2 output certs := by
  simp only [render, emitLoop_congr L1 L2 hquote hgz]

set_option maxRecDepth 100000 in
/-- The compressor does set the text: with another compressor the same input
renders another text. -/
theorem other_compressor_other_text :
    render toyLib "root_darwin_arm64.go" [toyCert 5] ≠
      render toyLibOtherGzip "root_darwin_arm64.go" [toyCert 5] := by
  intro h
  have hlen := congrArg
    (fun r : Except String String => match r with | .ok t => t.length | .error _ => 0) h
  revert hlen
  decide

/-! ## The claims -/

/-- C1: a block whose type is not exactly `CERTIFICATE`, or that carries a
header, is skipped: it is never handed to the certificate parser (the result is
the same for every parser that agrees on the accepted blocks), it causes no
error (an error is always the parse error of an accepted block), and the
certificates returned, hence the statements rendered, correspond one to one to
the accepted blocks. A certificate block followed by a rejected block gives
exactly one statement. -/
theorem rejected_blocks_never_emitted {FS : Type} (L : Lib FS) (hd : Shrinks L.pemDecode)
    (fuel : Nat) (w : FS) (data : Bytes)
    (hread : L.readFile w "certs.pem" = .ok data) (hfuel : data.length ≤ fuel) :
    (∀ b, accepted b = false ↔ (b.blockType ≠ "CERTIFICATE" ∨ b.Headers ≠ [])) ∧
    (∀ parse2 : Bytes → Except String Certificate,
      (∀ b ∈ blocksOf L.pemDecode data, accepted b = true →
        parse2 b.Bytes = L.parseCertificate b.Bytes) →
      selectCerts { L with parseCertificate := parse2 } fuel w = selectCerts L fuel w) ∧
    (∀ certs err, selectCerts L fuel w = some (certs, some err) →
      ∃ b ∈ blocksOf L.pemDecode data,
        accepted b = true ∧ L.parseCertificate b.Bytes = .error err) ∧
    (∀ certs, selectCerts L fuel w = some (certs, none) →
      List.Forall₂ (fun b c => L.parseCertificate b.Bytes = .ok c)
        ((blocksOf L.pemDecode data).filter accepted) certs ∧
      ∀ output text, render L output certs = .ok text →
        ∃ ss, statementsOf L certs = .ok ss ∧
          ss.length = ((blocksOf L.pemDecode data).filter accepted).length ∧
          text = marker output ++ header ++ String.join ss ++ footer) ∧
    (∀ b1 b2 c gz, blocksOf L.pemDecode data = [b1, b2] →
      accepted b1 = true → accepted b2 = false →
      L.parseCertificate b1.Bytes = .ok c → L.gzipBest c.Raw = .ok gz →
      selectCerts L fuel w = some ([c], none) ∧
      ∀ output, render L output [c] =
        .ok (marker output ++ header ++ statement L c.RawSubject c.SubjectKeyId gz ++ footer)) := by
  have hsel := selectCerts_eq L hd fuel w data hread hfuel
  refine ⟨accepted_false_iff, ?_, ?_, ?_, ?_⟩
  · intro parse2 hagree
    have h2 := selectCerts_eq { L with parseCertificate := parse2 } hd fuel w data hread hfuel
    rw [hsel, h2]
    congr 2
    apply decodeAll_congr
    intro b hb
    rw [List.mem_filter] at hb
    exact hagree b hb.1 hb.2
  · intro certs err h
    rw [hsel] at h
    have h := ((finish_error_iff _ _ _).1 (Option.some.inj h)).1
    obtain ⟨pre, b, post, h1, _, h3⟩ := decodeAll_error_inv _ _ _ h
    have hb : b ∈ (blocksOf L.pemDecode data).filter accepted := by
      rw [h1]; simp
    rw [List.mem_filter] at hb
    exact ⟨b, hb.1, hb.2, h3⟩
  · intro certs h
    rw [hsel] at h
    have h := (finish_ok_iff _ _).1 (Option.some.inj h)
    have hf := (decodeAll_ok_iff _ _ _).1 h
    refine ⟨hf, ?_⟩
    intro output text ht
    obtain ⟨ss, hss, htext⟩ := (render_ok_iff L output certs text).1 ht
    refine ⟨ss, hss, ?_, htext⟩
    rw [hf.length_eq, ((statementsOf_ok_iff L certs ss).1 hss).length_eq]
  · intro b1 b2 c gz hbs h1 h2 hp hg
    constructor
    · rw [hsel, hbs]
      simp [List.filter_cons, h1, h2, decodeAll, hp, finish]
    · intro output
      rw [render_ok_iff]
      refine ⟨[statement L c.RawSubject c.SubjectKeyId gz], ?_, ?_⟩
      · simp [statementsOf, hg]
      · simp [join_cons, String.join]

/-- Witness of C1: a certificate block followed by a private-key block. -/
theorem rejected_blocks_never_emitted_witness :
    selectCerts toyLib 4 [("certs.pem", [1, 5, 2, 9])] = some ([toyCert 5], none) ∧
    render toyLib "root_darwin_arm64.go" [toyCert 5] =
      .ok (marker "root_darwin_arm64.go" ++ header
        ++ statement toyLib [48, 5] [1] [31, 139, 5] ++ footer) := by
  have h := (rejected_blocks_never_emitted toyLib toyDecode_shrinks 4
    [("certs.pem", [1, 5, 2, 9])] [1, 5, 2, 9] rfl (by decide)).2.2.2.2
    ⟨"CERTIFICATE", [], [5]⟩ ⟨"PRIVATE KEY", [], [9]⟩ (toyCert 5) [31, 139, 5]
    (by decide) (by decide) (by decide) rfl rfl
  exact ⟨h.1, h.2 "root_darwin_arm64.go"⟩

/-- Counterexample to C2 as stated: the input holds a good certificate block
followed by a malformed one. One scanned block is accepted and decodes, yet
`selectCerts` returns no certificate. -/
theorem count_differs_on_abort :
    toyRead [("certs.pem", [1, 5, 1, 200])] "certs.pem" = .ok [1, 5, 1, 200] ∧
    selectCerts toyLib 4 [("certs.pem", [1, 5, 1, 200])] =
      some ([], some "x509: malformed certificate") ∧
    ((blocksOf toyDecode [1, 5, 1, 200]).filter
      (fun b => accepted b && (toyParse b.Bytes).toBool)).length = 1 := by
  refine ⟨rfl, by decide, by decide⟩

/-- C2 (amended): when every scanned block is a header-free `CERTIFICATE` block
that decodes, `selectCerts` succeeds and the number of certificates, and of
statements, equals the number of input blocks; whenever `selectCerts` succeeds,
that number equals the number of scanned blocks that are accepted and decode. -/
theorem certificate_count {FS : Type} (L : Lib FS) (hd : Shrinks L.pemDecode)
    (fuel : Nat) (w : FS) (data : Bytes)
    (hread : L.readFile w "certs.pem" = .ok data) (hfuel : data.length ≤ fuel) :
    ((∀ b ∈ blocksOf L.pemDecode data,
        accepted b = true ∧ ∃ c, L.parseCertificate b.Bytes = .ok c) →
      ∃ certs, selectCerts L fuel w = some (certs, none) ∧
        certs.length = (blocksOf L.pemDecode data).length ∧
        ∀ output text, render L output certs = .ok text →
          ∃ ss, statementsOf L certs = .ok ss ∧
            text = marker output ++ header ++ String.join ss ++ footer ∧
            ss.length = (blocksOf L.pemDecode data).length) ∧
    (∀ certs, selectCerts L fuel w = some (certs, none) →
      certs.length = ((blocksOf L.pemDecode data).filter
        (fun b => accepted b && (L.parseCertificate b.Bytes).toBool)).length ∧
      ∀ output text, render L output certs = .ok text →
        ∃ ss, statementsOf L certs = .ok ss ∧
          text = marker output ++ header ++ String.join ss ++ footer ∧
          ss.length = ((blocksOf L.pemDecode data).filter
            (fun b => accepted b && (L.parseCertificate b.Bytes).toBool)).length) := by
  have hsel := selectCerts_eq L hd fuel w data hread hfuel
  have hgen : ∀ certs, selectCerts L fuel w = some (certs, none) →
      List.Forall₂ (fun b c => L.parseCertificate b.Bytes = .ok c)
        ((blocksOf L.pemDecode data).filter accepted) certs := by
    intro certs h
    rw [hsel] at h
    exact (decodeAll_ok_iff _ _ _).1 ((finish_ok_iff _ _).1 (Option.some.inj h))
  constructor
  · intro hall
    have hfilter : (blocksOf L.pemDecode data).filter accepted = blocksOf L.pemDecode data :=
      List.filter_eq_self.2 (fun b hb => (hall b hb).1)
    have hex : ∀ bs : List Block, (∀ b ∈ bs, ∃ c, L.parseCertificate b.Bytes = .ok c) →
        ∃ cs, decodeAll L.parseCertificate bs = .ok cs := by
      intro bs
      induction bs with
      | nil => intro _; exact ⟨[], rfl⟩
      | cons x xs ih =>
        intro h
        obtain ⟨c, hc⟩ := h x (List.mem_cons_self _ _)
        obtain ⟨cs, hcs⟩ := ih (fun y hy => h y (List.mem_cons_of_mem _ hy))
        exact ⟨c :: cs, by simp [decodeAll, hc, hcs]⟩
    obtain ⟨cs, hcs⟩ := hex (blocksOf L.pemDecode data) (fun b hb => (hall b hb).2)
    have hs : selectCerts L fuel w = some (cs, none) := by
      rw [hsel, hfilter, hcs]; simp [finish]
    have hlen := (hgen cs hs).length_eq
    rw [hfilter] at hlen
    refine ⟨cs, hs, hlen.symm, ?_⟩
    intro output text ht
    obtain ⟨ss, hss, htext, hl⟩ := render_statements L output cs text ht
    exact ⟨ss, hss, htext, by rw [hl, hlen]⟩
  · intro certs h
    have hf := hgen certs h
    have hfilter : (blocksOf L.pemDecode data).filter
        (fun b => accepted b && (L.parseCertificate b.Bytes).toBool) =
        (blocksOf L.pemDecode data).filter accepted := by
      have hok : ∀ b ∈ (blocksOf L.pemDecode data).filter accepted,
          (L.parseCertificate b.Bytes).toBool = true := by
        intro b hb
        obtain ⟨i, hi, hget⟩ := List.getElem_of_mem hb
        have hi? : ((blocksOf L.pemDecode data).filter accepted)[i]? = some b := by
          rw [List.getElem?_eq_getElem hi, hget]
        obtain ⟨c, _, hc⟩ := forall₂_getElem? hf i b hi?
        simp [hc, Except.toBool]
      apply List.filter_congr
      intro b hb
      by_cases ha : accepted b = true
      · have := hok b (List.mem_filter.2 ⟨hb, ha⟩)
        simp [ha, this]
      · simp [ha]
    rw [hfilter]
    refine ⟨hf.length_eq.symm, ?_⟩
    intro output text ht
    obtain ⟨ss, hss, htext, hl⟩ := render_statements L output certs text ht
    exact ⟨ss, hss, htext, by rw [hl, hf.length_eq]⟩

/-- Witness of C2 (amended): two good certificate blocks and a private key. -/
theorem certificate_count_witness :
    selectCerts toyLib 6 [("certs.pem", [1, 5, 2, 9, 1, 7])] =
      some ([toyCert 5, toyCert 7], none) ∧
    [toyCert 5, toyCert 7].length = ((blocksOf toyDecode [1, 5, 2, 9, 1, 7]).filter
      (fun b => accepted b && (toyParse b.Bytes).toBool)).length := by
  have hs : selectCerts toyLib 6 [("certs.pem", [1, 5, 2, 9, 1, 7])] =
      some ([toyCert 5, toyCert 7], none) := by decide
  exact ⟨hs, ((certificate_count toyLib toyDecode_shrinks 6
    [("certs.pem", [1, 5, 2, 9, 1, 7])] [1, 5, 2, 9, 1, 7] rfl (by decide)).2 _ hs).1⟩

/-- C3: if some accepted block fails to decode, `selectCerts` returns the error
of the first such block together with no certificates, whatever precedes it,
and `main` ends in `log.Fatal` with that error, leaving the file system exactly
as it found it (the write step is never reached). -/
theorem decode_failure_aborts {FS : Type} (L : Lib FS) (hd : Shrinks L.pemDecode)
    (fuel : Nat) (output : String) (w : FS) (data : Bytes)
    (hread : L.readFile w "certs.pem" = .ok data) (hfuel : data.length ≤ fuel)
    (hbad : ∃ b ∈ blocksOf L.pemDecode data,
      accepted b = true ∧ ∃ e, L.parseCertificate b.Bytes = .error e) :
    ∃ pre b post e, blocksOf L.pemDecode data = pre ++ b :: post ∧
      (∀ x ∈ pre, accepted x = true → ∃ c, L.parseCertificate x.Bytes = .ok c) ∧
      accepted b = true ∧ L.parseCertificate b.Bytes = .error e ∧
      selectCerts L fuel w = some ([], some e) ∧
      main L fuel output w = some ⟨w, some e⟩ := by
  obtain ⟨pre, b, post, e, h1, h2, h3, h4⟩ := first_failing_block L.parseCertificate _ hbad
  have hsel : selectCerts L fuel w = some ([], some e) := by
    rw [selectCerts_eq L hd fuel w data hread hfuel, h1,
      decodeAll_filter_error L.parseCertificate pre post b e h2 h3 h4]
    rfl
  refine ⟨pre, b, post, e, h1, h2, h3, h4, hsel, ?_⟩
  simp [main, hsel]

/-- Witness of C3: a good certificate block followed by a malformed one. -/
theorem decode_failure_aborts_witness :
    ∃ pre b post e, blocksOf toyDecode [1, 5, 1, 200] = pre ++ b :: post ∧
      (∀ x ∈ pre, accepted x = true → ∃ c, toyParse x.Bytes = .ok c) ∧
      accepted b = true ∧ toyParse b.Bytes = .error e ∧
      selectCerts toyLib 4 [("certs.pem", [1, 5, 1, 200])] = some ([], some e) ∧
      main toyLib 4 "root_darwin_arm64.go" [("certs.pem", [1, 5, 1, 200])] =
        some ⟨[("certs.pem", [1, 5, 1, 200])], some e⟩ :=
  decode_failure_aborts toyLib toyDecode_shrinks 4 "root_darwin_arm64.go"
    [("certs.pem", [1, 5, 1, 200])] [1, 5, 1, 200] rfl (by decide)
    ⟨⟨"CERTIFICATE", [], [200]⟩, by decide, by decide, "x509: malformed certificate", rfl⟩

/-- C4: provided `gunzip` inverts the compressor and parsing the `Raw` bytes of
a parsed certificate reproduces its `RawSubject` and `SubjectKeyId`, the text
rendered by `main` is the marker, the header, one statement per certificate
and the footer, the arguments of a statement being the certificate's
`RawSubject`, its `SubjectKeyId` and the compression of its `Raw`; and for every
statement, decompressing its third argument and parsing the result gives a
certificate whose subject and subject key identifier are the first and second
arguments. -/
theorem statement_roundtrip {FS : Type} (L : Lib FS) (gunzip : Bytes → Option Bytes)
    (hgz : ∀ x z, L.gzipBest x = .ok z → gunzip z = some x)
    (hraw : ∀ der c, L.parseCertificate der = .ok c →
      ∃ c2, L.parseCertificate c.Raw = .ok c2 ∧
        c2.RawSubject = c.RawSubject ∧ c2.SubjectKeyId = c.SubjectKeyId)
    (fuel : Nat) (output : String) (w : FS) (certs : List Certificate) (text : String)
    (hsel : selectCerts L fuel w = some (certs, none))
    (htext : render L output certs = .ok text) :
    ∃ units : List (Bytes × Bytes × Bytes),
      List.Forall₂ (fun c u => u.1 = c.RawSubject ∧ u.2.1 = c.SubjectKeyId ∧
        L.gzipBest c.Raw = .ok u.2.2) certs units ∧
      text = marker output ++ header
        ++ String.join (units.map fun u => statement L u.1 u.2.1 u.2.2) ++ footer ∧
      ∀ u ∈ units, ∃ der c2, gunzip u.2.2 = some der ∧ L.parseCertificate der = .ok c2 ∧
        c2.RawSubject = u.1 ∧ c2.SubjectKeyId = u.2.1 := by
  have hparsed : ∀ c ∈ certs, ∃ der, L.parseCertificate der = .ok c := by
    intro c hc
    simp only [selectCerts] at hsel
    cases hr : L.readFile w "certs.pem" with
    | error e => rw [hr] at hsel; cases hsel
    | ok data =>
      rw [hr] at hsel
      rcases selectLoop_mem L fuel data [] certs hsel c hc with h | h
      · cases h
      · exact h
  obtain ⟨ss, hss, ht⟩ := (render_ok_iff L output certs text).1 htext
  have key : ∀ (cs : List Certificate) (ss : List String),
      (∀ c ∈ cs, ∃ der, L.parseCertificate der = .ok c) → statementsOf L cs = .ok ss →
      ∃ units : List (Bytes × Bytes × Bytes),
        List.Forall₂ (fun c u => u.1 = c.RawSubject ∧ u.2.1 = c.SubjectKeyId ∧
          L.gzipBest c.Raw = .ok u.2.2) cs units ∧
        ss = units.map (fun u => statement L u.1 u.2.1 u.2.2) ∧
        ∀ u ∈ units, ∃ der c2, gunzip u.2.2 = some der ∧ L.parseCertificate der = .ok c2 ∧
          c2.RawSubject = u.1 ∧ c2.SubjectKeyId = u.2.1 := by
    intro cs
    induction cs with
    | nil =>
      intro ss _ h
      simp only [statementsOf] at h
      cases h
      exact ⟨[], List.Forall₂.nil, rfl, by simp⟩
    | cons c cs ih =>
      intro ss hp h
      simp only [statementsOf] at h
      cases hg : L.gzipBest c.Raw with
      | error e => rw [hg] at h; cases h
      | ok gz =>
        rw [hg] at h
        cases hr : statementsOf L cs with
        | error e => rw [hr] at h; cases h
        | ok ss0 =>
          rw [hr] at h
          cases h
          obtain ⟨units, hl, hm, hu⟩ :=
            ih ss0 (fun y hy => hp y (List.mem_cons_of_mem _ hy)) hr
          refine ⟨(c.RawSubject, c.SubjectKeyId, gz) :: units,
            List.Forall₂.cons ⟨rfl, rfl, hg⟩ hl, by simp [hm], ?_⟩
          intro u hu0
          rcases List.mem_cons.1 hu0 with rfl | hu0
          · obtain ⟨der, hder⟩ := hp c (List.mem_cons_self _ _)
            obtain ⟨c2, h1, h2, h3⟩ := hraw der c hder
            exact ⟨c.Raw, c2, hgz _ _ hg, h1, h2, h3⟩
          · exact hu u hu0
  obtain ⟨units, hl, hm, hu⟩ := key certs ss hparsed hss
  exact ⟨units, hl, by rw [ht, hm], hu⟩

theorem toyGunzip_toyGzip (x z : Bytes) (h : toyGzip x = .ok z) : toyGunzip z = some x := by
  simp only [toyGzip, Except.ok.injEq] at h
  subst h
  rfl

theorem toyParse_raw (der : Bytes) (c : Certificate) (h : toyParse der = .ok c) :
    ∃ c2, toyParse c.Raw = .ok c2 ∧
      c2.RawSubject = c.RawSubject ∧ c2.SubjectKeyId = c.SubjectKeyId := by
  match der, h with
  | [], h => simp [toyParse] at h
  | [p], h =>
    simp only [toyParse] at h
    split_ifs at h with hp
    simp only [Except.ok.injEq] at h
    subst h
    exact ⟨_, by simp [toyParse, hp], rfl, rfl⟩
  | _ :: _ :: _, h => simp [toyParse] at h

/-- Witness of C4: the run on one certificate block followed by a private key. -/
theorem statement_roundtrip_witness :
    ∃ units : List (Bytes × Bytes × Bytes),
      List.Forall₂ (fun c u => u.1 = c.RawSubject ∧ u.2.1 = c.SubjectKeyId ∧
        toyGzip c.Raw = .ok u.2.2) [toyCert 5] units ∧
      marker "root_darwin_arm64.go" ++ header
          ++ statement toyLib [48, 5] [1] [31, 139, 5] ++ footer =
        marker "root_darwin_arm64.go" ++ header
          ++ String.join (units.map fun u => statement toyLib u.1 u.2.1 u.2.2) ++ footer ∧
      ∀ u ∈ units, ∃ der c2, toyGunzip u.2.2 = some der ∧ toyParse der = .ok c2 ∧
        c2.RawSubject = u.1 ∧ c2.SubjectKeyId = u.2.1 :=
  statement_roundtrip toyLib toyGunzip toyGunzip_toyGzip toyParse_raw 4
    "root_darwin_arm64.go" [("certs.pem", [1, 5, 2, 9])] [toyCert 5] _
    (by decide) (by rfl)

/-- C5: the `%q` quoting is lossless. For every byte sequence, the literal that
`strconv.Quote` writes is an interpreted string literal of Go whose value is
exactly that byte sequence. The tables of `strconv.IsPrint` above Latin-1 are
arbitrary, except that the byte order mark is not printable. -/
theorem quoted_literal_lossless (tbl : Nat → Bool) (htbl : tbl 0xFEFF = false) (s : Bytes) :
    goUnquote (goQuote tbl s) = some s := by
  simp only [goUnquote, goQuote_data, if_true]
  exact quote_read tbl htbl s.length s (Nat.le_refl _) s.length (Nat.le_refl _) _
    (by simp)

/-- Witness of C5: a NUL, an invalid byte, a quote, a backslash, a newline, a
printable two-byte character and a truncated sequence. -/
theorem quoted_literal_lossless_witness :
    sampleTable 0xFEFF = false ∧
    goQuote sampleTable [0, 255, 34, 92, 10, 0xCE, 0xB1, 0xE2, 0x82] =
      "\"\\x00\\xff\\\"\\\\\\nα\\xe2\\x82\"" ∧
    goUnquote (goQuote sampleTable [0, 255, 34, 92, 10, 0xCE, 0xB1, 0xE2, 0x82]) =
      some [0, 255, 34, 92, 10, 0xCE, 0xB1, 0xE2, 0x82] :=
  ⟨by decide, by decide, quoted_literal_lossless sampleTable (by decide) _⟩

/-- C6: the statements are in input scan order. The rendered text is the
marker, the header, the statements and the footer; there are as many statements
as accepted blocks, and the statement at position `i` is built from the
certificate parsed from the accepted block at position `i`, carrying the
compression of that certificate's own DER. Two accepted blocks give exactly
two statements, in input order. -/
theorem statements_in_scan_order {FS : Type} (L : Lib FS) (hd : Shrinks L.pemDecode)
    (fuel : Nat) (w : FS) (data : Bytes)
    (hread : L.readFile w "certs.pem" = .ok data) (hfuel : data.length ≤ fuel)
    (certs : List Certificate) (ss : List String)
    (hsel : selectCerts L fuel w = some (certs, none))
    (hss : statementsOf L certs = .ok ss) :
    (∀ output, render L output certs =
      .ok (marker output ++ header ++ String.join ss ++ footer)) ∧
    ss.length = ((blocksOf L.pemDecode data).filter accepted).length ∧
    (∀ (i : Nat) (b : Block), ((blocksOf L.pemDecode data).filter accepted)[i]? = some b →
      ∃ c gz, L.parseCertificate b.Bytes = .ok c ∧ L.gzipBest c.Raw = .ok gz ∧
        certs[i]? = some c ∧
        ss[i]? = some (statement L c.RawSubject c.SubjectKeyId gz)) ∧
    (∀ b1 b2, blocksOf L.pemDecode data = [b1, b2] →
      accepted b1 = true → accepted b2 = true →
      ∃ c1 c2 g1 g2, L.parseCertificate b1.Bytes = .ok c1 ∧
        L.parseCertificate b2.Bytes = .ok c2 ∧
        L.gzipBest c1.Raw = .ok g1 ∧ L.gzipBest c2.Raw = .ok g2 ∧
        certs = [c1, c2] ∧
        ss = [statement L c1.RawSubject c1.SubjectKeyId g1,
              statement L c2.RawSubject c2.SubjectKeyId g2]) := by
  have hf : List.Forall₂ (fun b c => L.parseCertificate b.Bytes = .ok c)
      ((blocksOf L.pemDecode data).filter accepted) certs := by
    rw [selectCerts_eq L hd fuel w data hread hfuel] at hsel
    exact (decodeAll_ok_iff _ _ _).1 ((finish_ok_iff _ _).1 (Option.some.inj hsel))
  have hs := (statementsOf_ok_iff L certs ss).1 hss
  refine ⟨?_, ?_, ?_, ?_⟩
  · intro output
    exact (render_ok_iff L output certs _).2 ⟨ss, hss, rfl⟩
  · rw [hf.length_eq, hs.length_eq]
  · intro i b hb
    obtain ⟨c, hc, hp⟩ := forall₂_getElem? hf i b hb
    obtain ⟨s, hsi, gz, hg, rfl⟩ := forall₂_getElem? hs i c hc
    exact ⟨c, gz, hp, hg, hc, hsi⟩
  · intro b1 b2 hbs h1 h2
    have hfl : (blocksOf L.pemDecode data).filter accepted = [b1, b2] := by
      rw [hbs]; simp [List.filter_cons, h1, h2]
    rw [hfl] at hf
    cases hf with
    | @cons _ c1 _ cs1 hp1 hrest =>
      cases hrest with
      | @cons _ c2 _ cs2 hp2 hrest2 =>
        cases hrest2
        cases hs with
        | cons hs1 hsrest =>
          cases hsrest with
          | cons hs2 hsrest2 =>
            cases hsrest2
            obtain ⟨g1, hg1, rfl⟩ := hs1
            obtain ⟨g2, hg2, rfl⟩ := hs2
            exact ⟨c1, c2, g1, g2, hp1, hp2, hg1, hg2, rfl, rfl⟩

/-- Witness of C6: two certificates with different subject key identifiers. -/
theorem statements_in_scan_order_witness :
    ∃ c1 c2 g1 g2, toyParse [6] = .ok c1 ∧ toyParse [5] = .ok c2 ∧
      toyGzip c1.Raw = .ok g1 ∧ toyGzip c2.Raw = .ok g2 ∧
      [toyCert 6, toyCert 5] = [c1, c2] ∧
      [statement toyLib [48, 6] [2] [31, 139, 6], statement toyLib [48, 5] [1] [31, 139, 5]] =
        [statement toyLib c1.RawSubject c1.SubjectKeyId g1,
         statement toyLib c2.RawSubject c2.SubjectKeyId g2] :=
  (statements_in_scan_order toyLib toyDecode_shrinks 4 [("certs.pem", [1, 6, 1, 5])]
    [1, 6, 1, 5] rfl (by decide) [toyCert 6, toyCert 5]
    [statement toyLib [48, 6] [2] [31, 139, 6], statement toyLib [48, 5] [1] [31, 139, 5]]
    (by decide) (by rfl)).2.2.2
    ⟨"CERTIFICATE", [], [6]⟩ ⟨"CERTIFICATE", [], [5]⟩ (by decide) (by decide) (by decide)

/-- Counterexample to C7 as stated: the same accepted certificate block twice
gives two certificates and two statements with the same subject key
identifier. -/
theorem duplicate_block_emitted_twice :
    selectCerts toyLib 4 [("certs.pem", [1, 5, 1, 5])] =
      some ([toyCert 5, toyCert 5], none) ∧
    statementsOf toyLib [toyCert 5, toyCert 5] =
      .ok [statement toyLib [48, 5] [1] [31, 139, 5],
           statement toyLib [48, 5] [1] [31, 139, 5]] ∧
    ¬ ([toyCert 5, toyCert 5].map Certificate.SubjectKeyId).Nodup := by
  refine ⟨by decide, by rfl, by decide⟩

/-- C7 (amended): the generator does not deduplicate. Whenever the run renders
its text, the statement of the certificate of an accepted block that decodes
is rendered at least as many times as the block occurs in the input; an input
that contains the same accepted certificate block twice has two positions
whose statements both come from that certificate, hence from certificates with
the same subject key identifier. -/
theorem duplicates_are_kept {FS : Type} (L : Lib FS) (hd : Shrinks L.pemDecode)
    (fuel : Nat) (w : FS) (data : Bytes)
    (hread : L.readFile w "certs.pem" = .ok data) (hfuel : data.length ≤ fuel)
    (certs : List Certificate) (output text : String)
    (hsel : selectCerts L fuel w = some (certs, none))
    (htext : render L output certs = .ok text) :
    ∃ ss, statementsOf L certs = .ok ss ∧
      text = marker output ++ header ++ String.join ss ++ footer ∧
      ∀ b c gz, accepted b = true → L.parseCertificate b.Bytes = .ok c →
        L.gzipBest c.Raw = .ok gz →
        (blocksOf L.pemDecode data).count b ≤ certs.count c ∧
        (blocksOf L.pemDecode data).count b ≤
          ss.count (statement L c.RawSubject c.SubjectKeyId gz) ∧
        (2 ≤ (blocksOf L.pemDecode data).count b →
          ∃ i j : Nat, i < j ∧ certs[i]? = some c ∧ certs[j]? = some c ∧
            ss[i]? = some (statement L c.RawSubject c.SubjectKeyId gz) ∧
            ss[j]? = some (statement L c.RawSubject c.SubjectKeyId gz)) := by
  have hf : List.Forall₂ (fun b c => L.parseCertificate b.Bytes = .ok c)
      ((blocksOf L.pemDecode data).filter accepted) certs := by
    rw [selectCerts_eq L hd fuel w data hread hfuel] at hsel
    exact (decodeAll_ok_iff _ _ _).1 ((finish_ok_iff _ _).1 (Option.some.inj hsel))
  obtain ⟨ss, hss, ht⟩ := (render_ok_iff L output certs text).1 htext
  have hs := (statementsOf_ok_iff L certs ss).1 hss
  refine ⟨ss, hss, ht, ?_⟩
  intro b c gz hb hp hg
  have hcount : (blocksOf L.pemDecode data).count b =
      ((blocksOf L.pemDecode data).filter accepted).count b := by
    rw [List.count_filter hb]
  have h1 : ((blocksOf L.pemDecode data).filter accepted).count b ≤ certs.count c := by
    apply forall₂_count_le b c _ hf
    intro c2 hc2
    rw [hp] at hc2
    cases hc2
    rfl
  have h2 : certs.count c ≤ ss.count (statement L c.RawSubject c.SubjectKeyId gz) := by
    apply forall₂_count_le c _ _ hs
    rintro s ⟨gz2, hg2, rfl⟩
    rw [hg] at hg2
    cases hg2
    rfl
  refine ⟨by omega, by omega, ?_⟩
  intro h2le
  rw [hcount] at h2le
  obtain ⟨i, j, hij, hi, hj⟩ := two_positions b _ h2le
  obtain ⟨ci, hci, hpi⟩ := forall₂_getElem? hf i b hi
  obtain ⟨cj, hcj, hpj⟩ := forall₂_getElem? hf j b hj
  rw [hp] at hpi hpj
  cases hpi
  cases hpj
  obtain ⟨si, hsi, gi, hgi, rfl⟩ := forall₂_getElem? hs i c hci
  obtain ⟨sj, hsj, gj, hgj, rfl⟩ := forall₂_getElem? hs j c hcj
  rw [hg] at hgi hgj
  cases hgi
  cases hgj
  exact ⟨i, j, hij, hci, hcj, hsi, hsj⟩

/-- Witness of C7 (amended): the same certificate block twice. -/
theorem duplicates_are_kept_witness :
    ∃ ss, statementsOf toyLib [toyCert 5, toyCert 5] = .ok ss ∧
      marker "root_darwin_arm64.go" ++ header
          ++ String.join [statement toyLib [48, 5] [1] [31, 139, 5],
            statement toyLib [48, 5] [1] [31, 139, 5]] ++ footer =
        marker "root_darwin_arm64.go" ++ header ++ String.join ss ++ footer ∧
      ∃ i j : Nat, i < j ∧ [toyCert 5, toyCert 5][i]? = some (toyCert 5) ∧
        [toyCert 5, toyCert 5][j]? = some (toyCert 5) ∧
        ss[i]? = some (statement toyLib [48, 5] [1] [31, 139, 5]) ∧
        ss[j]? = some (statement toyLib [48, 5] [1] [31, 139, 5]) := by
  obtain ⟨ss, h1, h2, h3⟩ := duplicates_are_kept toyLib toyDecode_shrinks 4
    [("certs.pem", [1, 5, 1, 5])] [1, 5, 1, 5] rfl (by decide) [toyCert 5, toyCert 5]
    "root_darwin_arm64.go"
    (marker "root_darwin_arm64.go" ++ header
      ++ String.join [statement toyLib [48, 5] [1] [31, 139, 5],
        statement toyLib [48, 5] [1] [31, 139, 5]] ++ footer)
    (by decide) ((render_ok_iff _ _ _ _).2 ⟨_, rfl, rfl⟩)
  exact ⟨ss, h1, h2, (h3 ⟨"CERTIFICATE", [], [5]⟩ (toyCert 5) [31, 139, 5]
    (by decide) rfl rfl).2.2 (by decide)⟩

/-- C8: on an empty `certs.pem` the scan succeeds with zero certificates for
every iteration bound, no statement is written, the rendered text is exactly
the marker line, the header and the footer, and `main` goes on to format and
write that text. -/
theorem empty_input {FS : Type} (L : Lib FS) (fuel : Nat) (output : String) (w : FS)
    (hread : L.readFile w "certs.pem" = .ok []) :
    selectCerts L fuel w = some ([], none) ∧
    statementsOf L [] = .ok [] ∧
    render L output [] = .ok (marker output ++ header ++ footer) ∧
    main L fuel output w =
      some (match L.formatSource (marker output ++ header ++ footer) with
        | .error err => ⟨w, some ("source format error:" ++ err)⟩
        | .ok source => ⟨(L.writeFile w output source).1, (L.writeFile w output source).2⟩) := by
  have hsel : selectCerts L fuel w = some ([], none) := by
    simp only [selectCerts, hread]
    cases fuel <;> simp [selectLoop]
  refine ⟨hsel, rfl, rfl, ?_⟩
  simp only [main, hsel, render, emitLoop]
  cases L.formatSource (marker output ++ header ++ footer) with
  | error e => rfl
  | ok source =>
    simp only
    rcases hw : L.writeFile w output source with ⟨w2, _ | e⟩ <;> rfl

set_option maxRecDepth 100000 in
/-- Witness of C8: the empty input with the default output name. -/
theorem empty_input_witness :
    selectCerts toyLib 0 [("certs.pem", [])] = some ([], none) ∧
    render toyLib "root_darwin_arm64.go" [] =
      .ok "// Code generated by root_darwin_arm_gen --output root_darwin_arm64.go; DO NOT EDIT.\n\n// Copyright 2015 The Go Authors. All rights reserved.\n// Use of this source code is governed by a BSD-style\n// license that can be found in the LICENSE file.\n\n// +build !x509omitbundledroots\n\npackage x509\n\nfunc loadSystemRoots() (*CertPool, error) \x7b\n\tp := NewCertPool()\n\n\treturn p, nil\n\x7d\n" := by
  have h := empty_input toyLib 0 "root_darwin_arm64.go" [("certs.pem", [])] rfl
  exact ⟨h.1, h.2.2.1.trans (congrArg Except.ok (by decide))⟩

/-- C9: two runs on identical input bytes with the same output name and a
deterministic compressor give identical text. The runs may differ in
everything else: each has its own file system, its own reading and writing
routines and its own iteration bound; PEM decoding, certificate parsing,
quoting and formatting are functions of their arguments, and the compressor
returns the same bytes for the same input in both runs. Then both runs return,
they select the same certificates or fail with the same error, and they render
the same text; when the text is rendered and formatted, both hand the same
bytes to the write step, and otherwise both end in `log.Fatal` with the same
message and nothing written. -/
theorem output_determined_by_input {FS : Type} (L1 L2 : Lib FS)
    (hdec : L1.pemDecode = L2.pemDecode)
    (hparse : L1.parseCertificate = L2.parseCertificate)
    (hquote : L1.quote = L2.quote) (hfmt : L1.formatSource = L2.formatSource)
    (hgz : ∀ x, L1.gzipBest x = L2.gzipBest x)
    (hd : Shrinks L1.pemDecode)
    (fuel1 fuel2 : Nat) (output : String) (w1 w2 : FS) (data : Bytes)
    (hread1 : L1.readFile w1 "certs.pem" = .ok data)
    (hread2 : L2.readFile w2 "certs.pem" = .ok data)
    (hfuel1 : data.length ≤ fuel1) (hfuel2 : data.length ≤ fuel2) :
    ∃ certs err, selectCerts L1 fuel1 w1 = some (certs, err) ∧
      selectCerts L2 fuel2 w2 = some (certs, err) ∧
      render L1 output certs = render L2 output certs ∧
      (∀ text source, err = none → render L1 output certs = .ok text →
        L1.formatSource text = .ok source →
        L2.formatSource text = .ok source ∧
        main L1 fuel1 output w1 =
          some ⟨(L1.writeFile w1 output source).1, (L1.writeFile w1 output source).2⟩ ∧
        main L2 fuel2 output w2 =
          some ⟨(L2.writeFile w2 output source).1, (L2.writeFile w2 output source).2⟩) ∧
      ((err ≠ none ∨ (∃ e, render L1 output certs = .error e) ∨
          (∃ text e, render L1 output certs = .ok text ∧ L1.formatSource text = .error e)) →
        ∃ msg, main L1 fuel1 output w1 = some ⟨w1, some msg⟩ ∧
          main L2 fuel2 output w2 = some ⟨w2, some msg⟩) := by
  have hd2 : Shrinks L2.pemDecode := hdec ▸ hd
  have h1 := selectCerts_eq L1 hd fuel1 w1 data hread1 hfuel1
  have h2 := selectCerts_eq L2 hd2 fuel2 w2 data hread2 hfuel2
  rw [← hdec, ← hparse] at h2
  have hr := render_congr L1 L2 hquote hgz output
  generalize finish [] (decodeAll L1.parseCertificate
    ((blocksOf L1.pemDecode data).filter accepted)) = res at h1 h2
  obtain ⟨certs, err⟩ := res
  refine ⟨certs, err, h1, h2, hr certs, ?_, ?_⟩
  · intro text source herr hrender hformat
    subst herr
    have hformat2 : L2.formatSource text = .ok source := by rw [← hfmt]; exact hformat
    have hrender2 : render L2 output certs = .ok text := by rw [← hr]; exact hrender
    refine ⟨hformat2, ?_, ?_⟩
    · simp only [main, h1, hrender, hformat]
      rcases L1.writeFile w1 output source with ⟨w3, _ | e⟩ <;> rfl
    · simp only [main, h2, hrender2, hformat2]
      rcases L2.writeFile w2 output source with ⟨w3, _ | e⟩ <;> rfl
  · intro hfail
    cases err with
    | some e => exact ⟨e, by simp only [main, h1], by simp only [main, h2]⟩
    | none =>
      rcases hfail with h | ⟨e, he⟩ | ⟨text, e, ht, he⟩
      · exact absurd rfl h
      · have he2 : render L2 output certs = .error e := by rw [← hr]; exact he
        exact ⟨e, by simp only [main, h1, he], by simp only [main, h2, he2]⟩
      · have ht2 : render L2 output certs = .ok text := by rw [← hr]; exact ht
        have he2 : L2.formatSource text = .error e := by rw [← hfmt]; exact he
        exact ⟨"source format error:" ++ e, by simp only [main, h1, ht, he],
          by simp only [main, h2, ht2, he2]⟩

/-- Witness of C9: the same `certs.pem` on a disk that holds an older output
file and on a read-only disk, with different iteration bounds. -/
theorem output_determined_by_input_witness :
    main toyLib 2 "root_darwin_arm64.go"
        [("root_darwin_arm64.go", [47, 47]), ("certs.pem", [1, 5])] =
      some ⟨(toyWrite [("root_darwin_arm64.go", [47, 47]), ("certs.pem", [1, 5])]
          "root_darwin_arm64.go"
          ((marker "root_darwin_arm64.go" ++ header
            ++ String.join [statement toyLib [48, 5] [1] [31, 139, 5]] ++ footer).toList.map
              fun c => c.toNat.toUInt8)).1, none⟩ ∧
    main toyLibReadOnly 5 "root_darwin_arm64.go" [("certs.pem", [1, 5])] =
      some ⟨[("certs.pem", [1, 5])], some "permission denied"⟩ ∧
    toyLibReadOnly.formatSource (marker "root_darwin_arm64.go" ++ header
        ++ String.join [statement toyLib [48, 5] [1] [31, 139, 5]] ++ footer) =
      .ok ((marker "root_darwin_arm64.go" ++ header
        ++ String.join [statement toyLib [48, 5] [1] [31, 139, 5]] ++ footer).toList.map
          fun c => c.toNat.toUInt8) := by
  obtain ⟨certs, err, h1, _, _, hok, _⟩ := output_determined_by_input toyLib toyLibReadOnly
    rfl rfl rfl rfl (fun _ => rfl) toyDecode_shrinks 2 5 "root_darwin_arm64.go"
    [("root_darwin_arm64.go", [47, 47]), ("certs.pem", [1, 5])] [("certs.pem", [1, 5])]
    [1, 5] rfl rfl (by decide) (by decide)
  have e : selectCerts toyLib 2 [("root_darwin_arm64.go", [47, 47]), ("certs.pem", [1, 5])] =
      some ([toyCert 5], none) := by decide
  rw [e] at h1
  cases h1
  have h := hok _ _ rfl ((render_ok_iff _ _ _ _).2 ⟨_, rfl, rfl⟩) rfl
  exact ⟨h.2.1, h.2.2, h.1⟩

/-- C10: when the decoder returns a strictly shorter remainder with every
block, the scan loop returns for every input once the iteration bound is at
least the input length, with the same result for every such bound. It ends
when the remainder is empty or the decoder returns no block, and then returns
the certificates gathered so far without error, whatever the remaining bytes
are; a successful result extends the certificates gathered so far, and the
result depends on the input only through its blocks. -/
theorem scan_terminates {FS : Type} (L : Lib FS) (hd : Shrinks L.pemDecode)
    (fuel : Nat) (data : Bytes) (acc : List Certificate) (hfuel : data.length ≤ fuel) :
    (∃ certs err, selectLoop L fuel data acc = some (certs, err)) ∧
    selectLoop L fuel data acc = selectLoop L data.length data acc ∧
    ((data = [] ∨ (L.pemDecode data).1 = none) →
      selectLoop L fuel data acc = some (acc, none)) ∧
    (∀ certs, selectLoop L fuel data acc = some (certs, none) → ∃ more, certs = acc ++ more) ∧
    (∀ data2 : Bytes, data2.length ≤ fuel →
      blocksOf L.pemDecode data2 = blocksOf L.pemDecode data →
      selectLoop L fuel data2 acc = selectLoop L fuel data acc) ∧
    (∀ w, L.readFile w "certs.pem" = .ok data →
      ∃ certs err, selectCerts L fuel w = some (certs, err)) := by
  have h1 := selectLoop_eq L hd fuel data acc hfuel
  rw [scanBlocks_eq_blocksOf hd fuel data hfuel] at h1
  have h2 := selectLoop_eq L hd data.length data acc (Nat.le_refl _)
  rw [scanBlocks_eq_blocksOf hd data.length data (Nat.le_refl _)] at h2
  refine ⟨⟨_, _, h1⟩, by rw [h1, h2], ?_, ?_, ?_, ?_⟩
  · intro hend
    cases fuel with
    | zero =>
      have h0 : data.length = 0 := by omega
      simp [selectLoop, h0]
    | succ n =>
      rcases hend with rfl | hnone
      · simp [selectLoop]
      · simp only [selectLoop]
        split_ifs
        · rcases hdec : L.pemDecode data with ⟨_ | b, rest⟩
          · rfl
          · rw [hdec] at hnone; cases hnone
        · rfl
  · intro certs h
    rw [h1] at h
    cases hr : decodeAll L.parseCertificate ((blocksOf L.pemDecode data).filter accepted) with
    | error e => rw [hr] at h; simp [finish] at h
    | ok cs =>
      rw [hr] at h
      simp only [finish, Option.some.injEq, Prod.mk.injEq] at h
      exact ⟨cs, h.1.symm⟩
  · intro data2 hlen hblocks
    rw [h1, selectLoop_eq L hd fuel data2 acc hlen,
      scanBlocks_eq_blocksOf hd fuel data2 hlen, hblocks]
  · intro w hread
    simp only [selectCerts, hread]
    have h3 := selectLoop_eq L hd fuel data [] hfuel
    exact ⟨_, _, h3⟩

/-- Witness of C10: garbage after the last block of the miniature encoding. -/
theorem scan_terminates_witness :
    selectLoop toyLib 7 [1, 5, 2, 9, 0, 77, 1] [] =
      selectLoop toyLib [1, 5, 2, 9, 0, 77, 1].length [1, 5, 2, 9, 0, 77, 1] [] ∧
    selectLoop toyLib 7 [1, 5, 2, 9, 0, 77, 1] [] = some ([toyCert 5], none) :=
  ⟨(scan_terminates toyLib toyDecode_shrinks 7 [1, 5, 2, 9, 0, 77, 1] [] (by decide)).2.1,
    by decide⟩

end RootDarwinArmGen
